import Mathlib

/-!
Verification development for the `ub` package manager core.

The Go sources are shallowly embedded: pure functions become Lean
functions on `Nat` / `Int` / `String` / lists (machine `uint64`
arithmetic is `% 2 ^ 64`), stateful code becomes explicit state passing
or a step relation, and filesystem / network effects are recorded as
explicit traces.  Definitions mirror the corresponding Go functions
(named after them where Lean allows); theorems at the end of the file
settle the specification claims.
-/

namespace Ub

/-! ## Lexicographic string order

Go's `sort.Strings` sorts by the built-in string `<`, which is
byte-wise lexicographic on the UTF-8 encoding; on valid UTF-8 this
coincides with code-point-wise lexicographic order, embedded here on
`String.data`. -/

def lexLeChars : List Char → List Char → Bool
  | [], _ => true
  | _ :: _, [] => false
  | a :: as, b :: bs =>
      decide (a.toNat < b.toNat) || (decide (a.toNat = b.toNat) && lexLeChars as bs)

def strLe (s t : String) : Bool :=
  lexLeChars s.data t.data

/-- Insert a string into a sorted list (helper for `sortStrings`). -/
def insertSorted (x : String) : List String → List String
  | [] => [x]
  | y :: ys => if strLe x y then x :: y :: ys else y :: insertSorted x ys

/-- Embedding of Go `sort.Strings`: a sorted permutation of the input.
`sort.Strings` is deterministic and strings compare decidably, so any
sorted permutation is extensionally the same list. -/
def sortStrings (l : List String) : List String :=
  l.foldr insertSorted []

/-! ## UTF-8 bytes of a string

Go's `[]byte(s)` is the UTF-8 encoding of the string; `utf8Bytes`
computes the same byte sequence from the code points. -/

def utf8EncodeCharNat (c : Nat) : List Nat :=
  if c < 0x80 then [c]
  else if c < 0x800 then [0xC0 + c / 64, 0x80 + c % 64]
  else if c < 0x10000 then [0xE0 + c / 4096, 0x80 + c / 64 % 64, 0x80 + c % 64]
  else [0xF0 + c / 262144, 0x80 + c / 4096 % 64, 0x80 + c / 64 % 64, 0x80 + c % 64]

def utf8Bytes (s : String) : List Nat :=
  s.data.flatMap (fun c => utf8EncodeCharNat c.toNat)

/-! ## SeaHash (`internal/fetch`: `seahash64`, `seaHashDiffuse`, `hash`)

`uint64` arithmetic is modelled as `Nat` with explicit `% 2 ^ 64`;
`^^^` and `>>>` never exceed the width of their arguments, so only the
multiplications need reducing. -/

def seaHashSeedA : Nat := 0x16f11fe89b0d677c
def seaHashSeedB : Nat := 0xb480a793d8e6c86c
def seaHashSeedC : Nat := 0x6fe2e5aaf078ebc9
def seaHashSeedD : Nat := 0x14f994a4c5259381
def seaHashMul : Nat := 0x6eed0e9da4d94a4f

def seaHashDiffuse (x : Nat) : Nat :=
  let x1 := x * seaHashMul % 2 ^ 64
  let a := x1 >>> 32
  let b := x1 >>> 60
  let x2 := x1 ^^^ (a >>> b)
  x2 * seaHashMul % 2 ^ 64

/-- Little-endian word value of a byte list: the first byte is least
significant.  Applied to fewer than 8 bytes this equals the value of
the zero-padded 8-byte buffer, matching the Go tail handling. -/
def leWord (bs : List Nat) : Nat :=
  bs.foldr (fun b acc => acc * 256 + b) 0

/-- Main loop of `seahash64`: consume 8-byte little-endian words; a
non-empty tail of fewer than 8 bytes is consumed as one zero-padded
word (`copy(last[:], data[start:])` in the source). -/
def seahashLoop : Nat → Nat → Nat → Nat → List Nat → Nat × Nat × Nat × Nat
  | a, b, c, d, b0 :: b1 :: b2 :: b3 :: b4 :: b5 :: b6 :: b7 :: rest =>
      seahashLoop b c d (seaHashDiffuse (a ^^^ leWord [b0, b1, b2, b3, b4, b5, b6, b7])) rest
  | a, b, c, d, [] => (a, b, c, d)
  | a, b, c, d, tail => (b, c, d, seaHashDiffuse (a ^^^ leWord tail))

def seahash64 (data : List Nat) : Nat :=
  let s := seahashLoop seaHashSeedA seaHashSeedB seaHashSeedC seaHashSeedD data
  seaHashDiffuse (s.1 ^^^ s.2.1 ^^^ s.2.2.1 ^^^ s.2.2.2 ^^^ data.length)

/-- Hex digit character for a value below 16 (`encoding/hex` alphabet). -/
def hexDigitChar (n : Nat) : Char :=
  if n < 10 then Char.ofNat (48 + n) else Char.ofNat (87 + n)

def byteHex (b : Nat) : List Char :=
  [hexDigitChar (b / 16 % 16), hexDigitChar (b % 16)]

/-- Embedding of `binary.LittleEndian.PutUint64`: the 8 bytes of a
64-bit value, least significant first. -/
def leBytes8 (x : Nat) : List Nat :=
  [x % 256, x / 256 % 256, x / 256 ^ 2 % 256, x / 256 ^ 3 % 256,
   x / 256 ^ 4 % 256, x / 256 ^ 5 % 256, x / 256 ^ 6 % 256, x / 256 ^ 7 % 256]

/-- Embedding of `internal/fetch.hash`: hex of the little-endian bytes
of the SeaHash digest of the input string's bytes. -/
def hash (input : String) : String :=
  ⟨(leBytes8 (seahash64 (utf8Bytes input))).flatMap byteHex⟩

/-! ## Go string helpers (`strings`, `unicode`) -/

/-- Embedding of Go `unicode.IsSpace`: the White_Space property
(Latin-1 cases plus the Unicode space code points). -/
def goIsSpace (c : Char) : Bool :=
  [9, 10, 11, 12, 13, 32, 0x85, 0xA0, 0x1680,
   0x2000, 0x2001, 0x2002, 0x2003, 0x2004, 0x2005, 0x2006, 0x2007,
   0x2008, 0x2009, 0x200A, 0x2028, 0x2029, 0x202F, 0x205F, 0x3000].contains c.toNat

/-- Embedding of Go `strings.TrimSpace`: strip leading and trailing
white space. -/
def trimSpace (s : String) : String :=
  ⟨((s.data.dropWhile goIsSpace).reverse.dropWhile goIsSpace).reverse⟩

/-- ASCII fragment of Go `strings.ToLower` (per-rune `unicode.ToLower`);
all scheme and parameter names handled by the challenge parser are
ASCII. -/
def toLowerChar (c : Char) : Char :=
  if 65 ≤ c.toNat ∧ c.toNat ≤ 90 then Char.ofNat (c.toNat + 32) else c

def toLowerStr (s : String) : String :=
  ⟨s.data.map toLowerChar⟩

/-- Embedding of Go `strings.HasPrefix` (byte-wise prefix; on the
character level for valid UTF-8). -/
def hasPrefix (s pre : String) : Bool :=
  pre.data.isPrefixOf s.data

/-! ## Go path cleaning (`path/filepath` on a Unix separator)

`filepath.Clean` is the standard lexical cleanup: collapse separators,
drop `.`, resolve `..` against the preceding element (never above the
root of a rooted path; kept literally at the front of a relative one).
It is embedded segment-wise, which is the specified behaviour of the
byte-level Go loop. -/

def splitSlash : List Char → List (List Char)
  | [] => [[]]
  | c :: cs =>
      if c = '/' then [] :: splitSlash cs
      else
        match splitSlash cs with
        | [] => [[c]]
        | seg :: rest => (c :: seg) :: rest

/-- Process cleaned segments with a stack whose head is the most recent
kept segment. -/
def cleanSegs (rooted : Bool) : List (List Char) → List (List Char) → List (List Char)
  | stack, [] => stack.reverse
  | stack, seg :: rest =>
      if seg = [] ∨ seg = ['.'] then cleanSegs rooted stack rest
      else if seg = ['.', '.'] then
        match stack with
        | [] => if rooted then cleanSegs rooted [] rest else cleanSegs rooted [['.', '.']] rest
        | top :: stk =>
            if top = ['.', '.'] then cleanSegs rooted (seg :: stack) rest
            else cleanSegs rooted stk rest
      else cleanSegs rooted (seg :: stack) rest

/-- Embedding of Go `filepath.Clean` for the Unix separator. -/
def goClean (p : String) : String :=
  if p = "" then "."
  else
    let cs := p.data
    let rooted := cs.head? = some '/'
    let segs := cleanSegs rooted [] (splitSlash cs)
    if segs = [] then (if rooted then "/" else ".")
    else
      let body : List Char := List.intercalate ['/'] segs
      if rooted then ⟨'/' :: body⟩ else ⟨body⟩

/-- Embedding of Go `filepath.Join`: skip leading empty elements, join
the rest with the separator, and clean the result (empty when every
element is empty). -/
def goJoinList (elems : List String) : String :=
  match elems.dropWhile (fun e => e = "") with
  | [] => ""
  | es => goClean ⟨List.intercalate ['/'] (es.map String.data)⟩

def goJoin (a b : String) : String :=
  goJoinList [a, b]

/-- Embedding of Go `filepath.Dir`: everything up to the final
separator, cleaned (`.` when there is no separator). -/
def goDir (p : String) : String :=
  goClean ⟨(p.data.reverse.dropWhile (fun c => ¬ c = '/')).reverse⟩

/-! ## Archive extraction (`extractTarGz`, `extractZip`)

The archive decoding and the filesystem are abstracted: an archive is
the list of its entries, and the filesystem effects of one entry are
recorded as the list of paths it creates or writes.  The containment
check and the per-entry control flow are translated directly from the
source. -/

inductive TarType
  | dir
  | reg
  | link
  | symlink
  | other
deriving DecidableEq

structure TarEntry where
  name : String
  typeflag : TarType
  linkname : String
deriving DecidableEq

/-- Containment check of both extractors: the cleaned join of root and
entry name must equal the cleaned root or extend it past a separator
(`strings.HasPrefix(cleanTarget, cleanDst+sep) || cleanTarget == cleanDst`). -/
def entryWithinDst (dst name : String) : Bool :=
  let target := goJoin dst name
  let cleanDst := goClean dst
  let cleanTarget := goClean target
  hasPrefix cleanTarget (cleanDst ++ "/") || cleanTarget = cleanDst

/-- Filesystem paths created or written by one tar entry after it
passes the containment check, in source order (`MkdirAll` of the parent
directory, then the entry target itself); unrecognized types are
skipped silently. -/
def tarEntryWrites (dst : String) (e : TarEntry) : List String :=
  let cleanTarget := goClean (goJoin dst e.name)
  match e.typeflag with
  | .dir => [cleanTarget]
  | .reg => [goDir cleanTarget, cleanTarget]
  | .link => [goDir cleanTarget, cleanTarget]
  | .symlink => [goDir cleanTarget, cleanTarget]
  | .other => []

/-- Run of `extractTarGz` over the entry list: each write is tagged
with the index of the entry that performed it; the first entry that
fails the containment check stops extraction with an error and writes
nothing. -/
def extractTarGzRun (dst : String) (idx : Nat) :
    List TarEntry → List (Nat × String) × Option String
  | [] => ([], none)
  | e :: rest =>
      if entryWithinDst dst e.name then
        let r := extractTarGzRun dst (idx + 1) rest
        ((tarEntryWrites dst e).map (fun w => (idx, w)) ++ r.1, r.2)
      else
        ([], some ("tar entry escapes destination: " ++ e.name))

def extractTarGz (dst : String) (entries : List TarEntry) :
    List (Nat × String) × Option String :=
  extractTarGzRun dst 0 entries

structure ZipEntry where
  name : String
  isDir : Bool
deriving DecidableEq

/-- Filesystem paths created or written by one zip entry after it
passes the containment check. -/
def zipEntryWrites (dst : String) (e : ZipEntry) : List String :=
  let cleanTarget := goClean (goJoin dst e.name)
  if e.isDir then [cleanTarget] else [goDir cleanTarget, cleanTarget]

def extractZipRun (dst : String) (idx : Nat) :
    List ZipEntry → List (Nat × String) × Option String
  | [] => ([], none)
  | e :: rest =>
      if entryWithinDst dst e.name then
        let r := extractZipRun dst (idx + 1) rest
        ((zipEntryWrites dst e).map (fun w => (idx, w)) ++ r.1, r.2)
      else
        ([], some ("zip entry escapes destination: " ++ e.name))

def extractZip (dst : String) (entries : List ZipEntry) :
    List (Nat × String) × Option String :=
  extractZipRun dst 0 entries

/-! ## Fetch cache (`internal/fetch.Cache.FetchWithProgress`)

The filesystem and the URL canonicalizer are abstracted into an
environment; the effects of one call (directories created, per-key
locks taken, progress events emitted, calls into `downloadWithRetry`)
are recorded as an explicit trace.  `pruneExpired` touches no network
and emits no events, so it does not appear in the trace. -/

structure GoProgress where
  url : String
  downloadedBytes : Int
  totalBytes : Int
  speedBytesPerSec : Int
  cached : Bool
  done : Bool
deriving DecidableEq

structure CacheEnv where
  canon : String → String
  fileSize : String → Option Int

structure FetchEffects where
  madeDirs : List String
  lockedKeys : List String
  events : List GoProgress
  downloadCalls : List String
deriving DecidableEq

def noEffects : FetchEffects :=
  ⟨[], [], [], []⟩

/-- Embedding of `Cache.cachePathForKey`: shard by the first two hex
characters of the key. -/
def cachePathForKey (dir key : String) : String :=
  let shard := if key.length ≥ 2 then (⟨key.data.take 2⟩ : String) else "xx"
  goJoinList [dir, "archive-v0", shard, key ++ ".src"]

/-- Embedding of `Cache.FetchWithProgress`.  `hasCallback` records
whether a progress callback was supplied; `downloadResult` is the
outcome of `downloadWithRetry` when the download path is reached
(`none` on success). -/
def fetchWithProgress (env : CacheEnv) (dir url : String) (hasCallback : Bool)
    (downloadResult : Option String) : (String × Option String) × FetchEffects :=
  if trimSpace url = "" then (("", none), noEffects)
  else
    let key := hash (env.canon url)
    let target := cachePathForKey dir key
    let eff : FetchEffects :=
      { madeDirs := [dir, goDir target], lockedKeys := [key], events := [], downloadCalls := [] }
    match env.fileSize target with
    | some size =>
        let events :=
          if hasCallback then
            [{ url := url, downloadedBytes := size, totalBytes := size,
               speedBytesPerSec := 0, cached := true, done := true : GoProgress }]
          else []
        ((target, none), { eff with events := events })
    | none =>
        match downloadResult with
        | none => ((target, none), { eff with downloadCalls := [url] })
        | some err => (("", some err), { eff with downloadCalls := [url] })

/-! ## Retry loop (`Cache.downloadWithRetry`)

The per-attempt outcome, the cancellation signal and the random stream
are abstracted into functions of the attempt number; `rand.Intn(120)`
is a value below 120, modelled as `rnd n % 120`.  The trace records the
attempts made and the waits completed (in milliseconds). -/

inductive RetryStatus
  | ok
  | ctxCanceled
  | failedAfterRetries
deriving DecidableEq

def maxAttempts : Nat := 3

def retryLoop (fail cancel : Nat → Bool) (rnd : Nat → Nat) :
    Nat → Nat → RetryStatus × List Nat × List Nat
  | _, 0 => (.failedAfterRetries, [], [])
  | attempt, fuel + 1 =>
      if fail attempt = false then (.ok, [attempt], [])
      else if attempt = maxAttempts then (.failedAfterRetries, [attempt], [])
      else
        let backoff := attempt * attempt * 200
        let jitter := rnd attempt % 120
        if cancel attempt then (.ctxCanceled, [attempt], [])
        else
          let r := retryLoop fail cancel rnd (attempt + 1) fuel
          (r.1, attempt :: r.2.1, (backoff + jitter) :: r.2.2)

def downloadWithRetry (fail cancel : Nat → Bool) (rnd : Nat → Nat) :
    RetryStatus × List Nat × List Nat :=
  retryLoop fail cancel rnd 1 maxAttempts

/-! ## Plan builder (`internal/graph.BuildPlan`)

A dependency closure `map[string]formula.Formula` is embedded as an
association list from name to the formula's `Deps` list (the only
field `BuildPlan` consults); the Go map's key uniqueness is the
hypothesis `(keysOf fs).Nodup` of the theorems.  The mutable
`inDegree` map becomes a function `String → Int` updated pointwise, and
the per-round set `nextMap` becomes `dedup` before sorting. -/

abbrev Closure := List (String × List String)

def keysOf (fs : Closure) : List String :=
  fs.map Prod.fst

def depsOf (fs : Closure) (n : String) : List String :=
  match fs.find? (fun p => p.1 == n) with
  | some p => p.2
  | none => []

/-- The `dependents[dep]` list: one entry per occurrence of `dep` in a
formula's `Deps`, carrying the dependent formula's name. -/
def dependentsOf (fs : Closure) (d : String) : List String :=
  fs.flatMap (fun p => (p.2.filter (fun x => x == d)).map (fun _ => p.1))

/-- Net effect of the `inDegree` building loop: each key starts at the
number of its dependency occurrences (0 for absent names). -/
def initDeg (fs : Closure) : String → Int :=
  fun n => ((depsOf fs n).length : Int)

def initLevel (fs : Closure) : List String :=
  sortStrings ((keysOf fs).filter (fun n => initDeg fs n = 0))

/-- One decrement of the round body: `inDegree[dependent]--`, promoting
the dependent into `nextMap` when its counter reaches zero. -/
def decStep (st : (String → Int) × List String) (dep : String) :
    (String → Int) × List String :=
  let newDeg := st.1 dep - 1
  let deg2Go : String → Int := fun n => if n = dep then newDeg else st.1 n
  if newDeg = 0 then (deg2Go, st.2 ++ [dep]) else (deg2Go, st.2)

def processNode (fs : Closure) (st : (String → Int) × List String) (node : String) :
    (String → Int) × List String :=
  (dependentsOf fs node).foldl decStep st

def processLevel (fs : Closure) (deg : String → Int) (level : List String) :
    (String → Int) × List String :=
  level.foldl (processNode fs) (deg, [])

/-- The `for len(level) > 0` loop.  Each non-empty round strictly grows
the (duplicate-free) processed list inside the key set, so the fuel
`fs.length + 1` supplied by `BuildPlan` is never exhausted; the fuel
case merely makes the recursion structural. -/
def planLoop (fs : Closure) :
    Nat → (String → Int) → List String → List String → List (List String) →
    List String × List (List String)
  | _, _, [], order, layers => (order, layers)
  | 0, _, _ :: _, order, layers => (order, layers)
  | fuel + 1, deg, n :: rest, order, layers =>
      let st := processLevel fs deg (n :: rest)
      planLoop fs fuel st.1 (sortStrings st.2.dedup) (order ++ (n :: rest))
        (layers ++ [n :: rest])

structure Plan where
  order : List String
  layers : List (List String)
deriving DecidableEq

def BuildPlan (fs : Closure) : Except String Plan :=
  match fs.find? (fun p => p.2.any (fun d => !(keysOf fs).contains d)) with
  | some p => .error ("formula " ++ p.1 ++ " depends on unknown formula")
  | none =>
      let r := planLoop fs (fs.length + 1) (initDeg fs) (initLevel fs) [] []
      if r.1.length = fs.length then .ok ⟨r.1, r.2⟩
      else .error "dependency graph contains a cycle"

/-- Number of dependency occurrences of `n` not yet covered by the
processed prefix `S`: the value of `inDegree[n]` after the nodes of `S`
have been processed. -/
def cnt (fs : Closure) (S : List String) (n : String) : Nat :=
  ((depsOf fs n).filter (fun d => decide (d ∉ S))).length

/-- A directed dependency cycle: consecutive elements are dependency
edges and the last element closes back onto the first. -/
def IsDepCycle (fs : Closure) : List String → Prop
  | [] => False
  | x :: rest =>
      List.Chain (fun a b => b ∈ depsOf fs a) x rest ∧
      x ∈ depsOf fs ((x :: rest).getLast (List.cons_ne_nil x rest))

def sortedStr (l : List String) : Prop :=
  List.Pairwise (fun a b => strLe a b = true) l

/-- Invariant shape of the produced layers: each layer is sorted and
duplicate-free, and holds exactly the keys outside the processed
prefix whose dependencies the prefix covers; the next layer is
characterized against the prefix extended by this layer. -/
def LayersGood (fs : Closure) : List String → List (List String) → Prop
  | _, [] => True
  | order, lvl :: rest =>
      sortedStr lvl ∧ lvl.Nodup ∧
      (∀ n, n ∈ lvl ↔
        (n ∈ keysOf fs ∧ n ∉ order ∧ ∀ d ∈ depsOf fs n, d ∈ order)) ∧
      LayersGood fs (order ++ lvl) rest

/-- After the loop drains, no unprocessed key has all its dependencies
processed. -/
def NoReady (fs : Closure) (S : List String) : Prop :=
  ∀ n ∈ keysOf fs, n ∉ S → ¬ ∀ d ∈ depsOf fs n, d ∈ S

/-- Index of the first layer containing a name (`length` when absent);
dependency edges strictly decrease it, which rules out cycles. -/
def layerRank (L : List (List String)) (n : String) : Nat :=
  match L with
  | [] => 0
  | lvl :: rest => if n ∈ lvl then 0 else layerRank rest n + 1

/-! ## Autoremove analysis (`Manager.UninstallWithAutoremove`)

The resolver is abstracted: `preClosure name` is the key set of
`m.resolveClosure(ctx, []string{name})` taken before the requested
removals, and `curClosure roots` is the key set of
`m.resolveClosure(ctx, roots)` over the current metadata afterwards
(`resolveClosure` of no roots returns the empty map, the hypothesis
`curClosure [] = []` of the theorem).  `remaining` is the
`ListInstalled()` result.  The computed name list is handed to
`uninstallFormulaBatch`, whose records preserve input order and become
the summary's `AutoRemove` field. -/

/-- The `candidateDeps` map: union over each requested formula of its
pre-removal closure minus the root itself. -/
def candidateDeps (preClosure : String → List String)
    (formulaTargets : List String) (dep : String) : Bool :=
  formulaTargets.any (fun name => (preClosure name).any (fun d => d == dep && !(d == name)))

/-- The `nonCandidateRoots` list: remaining formulae that are not
candidates, in `remaining` order. -/
def nonCandidateRoots (preClosure : String → List String)
    (formulaTargets remaining : List String) : List String :=
  remaining.filter (fun name => !(candidateDeps preClosure formulaTargets name))

/-- The `requiredByNonCandidates` map: the closure of the non-candidate
roots over the current metadata, intersected with `remaining`; empty
when there is no non-candidate root. -/
def requiredByNonCandidates (preClosure : String → List String)
    (curClosure : List String → List String)
    (formulaTargets remaining : List String) (dep : String) : Bool :=
  let ncr := nonCandidateRoots preClosure formulaTargets remaining
  if ncr.length > 0 then (curClosure ncr).contains dep && remaining.contains dep
  else false

/-- The `autoRemoveNames` computation: remaining formulae that are
candidates, not requested roots and not required, sorted. -/
def autoRemoveNames (preClosure : String → List String)
    (curClosure : List String → List String)
    (formulaTargets remaining : List String) : List String :=
  sortStrings (remaining.filter (fun name =>
    !(formulaTargets.contains name) &&
    candidateDeps preClosure formulaTargets name &&
    !(requiredByNonCandidates preClosure curClosure formulaTargets remaining name)))

/-- Modelled from the spec: a *candidate* is a member of some requested
root's pre-removal dependency closure other than that root itself. -/
def specCandidate (preClosure : String → List String)
    (roots : List String) (n : String) : Prop :=
  ∃ r ∈ roots, n ∈ preClosure r ∧ n ≠ r

instance (preClosure : String → List String) (roots : List String) (n : String) :
    Decidable (specCandidate preClosure roots n) :=
  inferInstanceAs (Decidable (∃ r ∈ roots, n ∈ preClosure r ∧ n ≠ r))

/-- Modelled from the spec: *required* is the dependency closure, over
the current metadata, of the remaining formulae that are not
candidates. -/
def specRequired (preClosure : String → List String)
    (curClosure : List String → List String)
    (roots remaining : List String) : List String :=
  curClosure (remaining.filter (fun m => decide (¬ specCandidate preClosure roots m)))

/-! ## Bearer challenge parsing (`parseBearerChallenge`, `fetchBearerToken`)

The Go parser scans `params` with the regular expression
`([a-zA-Z_]+)="([^"]*)"` (`FindAllStringSubmatch`).  For this pattern,
leftmost non-overlapping matching is the deterministic scan below: at
each position, the longest run of name characters must be followed by
`="`, then the value runs to the first quote; on failure the scan
advances one character.  The recursion is fueled by the input length,
which is always sufficient because a match consumes at least four
characters. -/

def isNameChar (c : Char) : Bool :=
  (65 ≤ c.toNat && c.toNat ≤ 90) || (97 ≤ c.toNat && c.toNat ≤ 122) || c = '_'

/-- Closing step of one match: the remainder after the value must start
with the closing quote. -/
def tryClose (name value : List Char) : List Char → Option ((String × String) × List Char)
  | c3 :: rest4 => if c3 = '"' then some ((⟨name⟩, ⟨value⟩), rest4) else none
  | [] => none

/-- After the name run, `="` must follow; the value is everything up to
the next quote. -/
def tryAfterName (name : List Char) : List Char → Option ((String × String) × List Char)
  | c1 :: c2 :: rest2 =>
      if c1 = '=' ∧ c2 = '"' then
        tryClose name (rest2.takeWhile (fun c => !(c = '"')))
          (rest2.dropWhile (fun c => !(c = '"')))
      else none
  | _ => none

/-- Attempt one `name="value"` match at the current position. -/
def tryMatch (cs : List Char) : Option ((String × String) × List Char) :=
  let name := cs.takeWhile isNameChar
  if name.isEmpty then none
  else tryAfterName name (cs.dropWhile isNameChar)

def scanGo : Nat → List Char → List (String × String)
  | 0, _ => []
  | _ + 1, [] => []
  | fuel + 1, c :: cs =>
      match tryMatch (c :: cs) with
      | some (p, rest) => p :: scanGo fuel rest
      | none => scanGo fuel cs

/-- All `name="value"` matches of the challenge parameters, in order. -/
def scanPairs (cs : List Char) : List (String × String) :=
  scanGo cs.length cs

/-- The `values` map of the parser: keys are lower-cased, later
occurrences overwrite earlier ones, and absent keys give `""`. -/
def valuesOf (pairs : List (String × String)) : String → String :=
  pairs.foldl (fun m kv => fun k => if k = toLowerStr kv.1 then kv.2 else m k)
    (fun _ => "")

/-- Embedding of `parseBearerChallenge`. -/
def parseBearerChallenge (challenge : String) :
    Except String (String × String × String) :=
  if trimSpace challenge = "" then
    .error "missing WWW-Authenticate challenge"
  else if !(hasPrefix (toLowerStr challenge) "bearer ") then
    .error ("unsupported auth challenge " ++ challenge)
  else
    let values := valuesOf (scanPairs (challenge.data.drop 7))
    let realm := values "realm"
    let service := values "service"
    let scope := values "scope"
    if trimSpace realm = "" then .error "auth challenge missing realm"
    else .ok (realm, service, scope)

/-- Embedding of `url.Values.Set`: replace every binding of the key. -/
def setQueryParam (q : List (String × String)) (k v : String) :
    List (String × String) :=
  (q.filter (fun kv => !(kv.1 == k))) ++ [(k, v)]

/-- Query building of `fetchBearerToken`: the realm URL's query gets
`service` and `scope` set only when non-empty. -/
def tokenQuery (base : List (String × String)) (service scope : String) :
    List (String × String) :=
  let q1 := if service ≠ "" then setQueryParam base "service" service else base
  if scope ≠ "" then setQueryParam q1 "scope" scope else q1

/-- Rendering of a parameter section from junk-separated pairs, used to
state the tolerance theorem: each item carries the junk preceding it. -/
def renderPairs (items : List (List Char × String × String)) (trailing : List Char) :
    List Char :=
  match items with
  | [] => trailing
  | (junk, nm, v) :: rest =>
      junk ++ (nm.data ++ ('=' :: '"' :: (v.data ++ ('"' :: renderPairs rest trailing))))

/-- Well-formedness of rendered items: junk holds neither name
characters nor quotes, names are non-empty runs of name characters, and
values are quote-free. -/
def RenderOK (items : List (List Char × String × String)) (trailing : List Char) : Prop :=
  (∀ it ∈ items,
    (∀ c ∈ it.1, isNameChar c = false ∧ c ≠ '"') ∧
    it.2.1.data ≠ [] ∧ (∀ c ∈ it.2.1.data, isNameChar c = true) ∧
    (∀ c ∈ it.2.2.data, c ≠ '"')) ∧
  (∀ c ∈ trailing, isNameChar c = false ∧ c ≠ '"')

/-! ## Scheduler (`Executor.Run`)

A batch of jobs is a `Closure`: the pair list of job ids and their
`Requires()` lists, in input order (`keysOf` the ids, `depsOf` the
requires lookup).  `Executor.Run` - after rejecting duplicate ids and
unknown requirements - runs workers that take ids from the `ready`
channel, run the job, and send the id to `completed`; the main loop
receives completions, decrements `inDegree[dependent]` once per
occurrence, and enqueues a dependent that reaches zero and is not yet
`queued`.  The embedding is a small-step transition system: `queue`
models the `ready` channel, `running` the jobs picked by workers whose
`Run` has begun, `done` the `completed` channel, `received` the ids the
main loop has taken from it, and `started` the append-only log of Run
begins.  Only the success path is modelled: the claim is about batches
whose jobs all complete successfully. -/

structure SState where
  queue : List String
  running : List String
  done : List String
  received : List String
  started : List String
  deg : String → Nat
  queuedF : String → Bool

/-- Number of occurrences of `x` in `l`: how many entries `dependents[x]`
holds for one dependent job with requirement list `l`. -/
def occCount (x : String) (l : List String) : Nat :=
  (l.filter (fun d => decide (d = x))).length

/-- Ids seeded into `ready` before the main loop: `inDegree[id] == 0`. -/
def zeroDegIds (jobs : Closure) : List String :=
  (keysOf jobs).filter (fun j => (depsOf jobs j).length = 0)

/-- Initial states: the seeding loop ranges over a Go map, so the zero
in-degree ids enter `ready` in an arbitrary order. -/
def InitS (jobs : Closure) (s : SState) : Prop :=
  s.queue.Perm (zeroDegIds jobs) ∧ s.running = [] ∧ s.done = [] ∧
  s.received = [] ∧ s.started = [] ∧
  (∀ j, s.deg j = (depsOf jobs j).length) ∧
  (∀ j, s.queuedF j = true ↔ j ∈ zeroDegIds jobs)

/-- Main-loop body for one id taken from `completed`: every dependent's
in-degree drops by its number of occurrences of `id`, and dependents
that reach zero and were not queued are appended to `ready` (in input
order, the order of the `dependents` lists) and marked queued. -/
def degAfter (jobs : Closure) (s : SState) (id : String) : String → Nat :=
  fun j => s.deg j - occCount id (depsOf jobs j)

/-- Dependents enqueued while handling `id`: jobs that require `id`,
whose in-degree reaches zero, and that are not yet queued. -/
def enqAfter (jobs : Closure) (s : SState) (id : String) : List String :=
  (keysOf jobs).filter
    (fun j => decide (0 < occCount id (depsOf jobs j)) &&
      decide (degAfter jobs s id j = 0) && !(s.queuedF j))

def receiveStep (jobs : Closure) (s : SState) (id : String) (d' : List String) : SState :=
  ⟨s.queue ++ enqAfter jobs s id, s.running, d', s.received ++ [id], s.started,
   degAfter jobs s id, fun j => s.queuedF j || decide (j ∈ enqAfter jobs s id)⟩

/-- Transitions of `Executor.Run` with `W` workers on the success path:
a free worker takes the head of `ready` and begins the job's `Run`; a
running job's `Run` returns `nil` and the worker sends the id to
`completed`; the main loop receives the head of `completed` and runs
the dependent-decrement body. -/
inductive StepS (jobs : Closure) (W : Nat) : SState → SState → Prop
  | pick (s : SState) (j : String) (q' : List String) :
      s.queue = j :: q' → s.running.length < W →
      StepS jobs W s
        ⟨q', s.running ++ [j], s.done, s.received, s.started ++ [j], s.deg, s.queuedF⟩
  | finish (s : SState) (j : String) :
      j ∈ s.running →
      StepS jobs W s
        ⟨s.queue, s.running.erase j, s.done ++ [j], s.received, s.started, s.deg, s.queuedF⟩
  | receive (s : SState) (id : String) (d' : List String) :
      s.done = id :: d' →
      StepS jobs W s (receiveStep jobs s id d')

/-- States reachable in `n` steps from an initial state. -/
inductive ReachN (jobs : Closure) (W : Nat) : Nat → SState → Prop
  | init (s : SState) : InitS jobs s → ReachN jobs W 0 s
  | step (n : Nat) (s t : SState) :
      ReachN jobs W n s → StepS jobs W s t → ReachN jobs W (n + 1) t

/-- Inductive invariant of the scheduler: the in-degree map counts the
not-yet-received requirement occurrences; the queued flag marks exactly
the ids in `ready` or already started; a started job is in exactly one
of running/completed-channel/received; no id is ever queued twice; only
input ids circulate; an id reaches in-degree zero only queued, and a
queued id has in-degree zero. -/
def InvS (jobs : Closure) (s : SState) : Prop :=
  (∀ j, s.deg j = cnt jobs s.received j) ∧
  (∀ j, s.queuedF j = true ↔ j ∈ s.queue ++ s.started) ∧
  s.started.Perm (s.running ++ s.done ++ s.received) ∧
  (s.queue ++ s.started).Nodup ∧
  (∀ j ∈ s.queue ++ s.started, j ∈ keysOf jobs) ∧
  (∀ j ∈ keysOf jobs, s.deg j = 0 → s.queuedF j = true) ∧
  (∀ j, s.queuedF j = true → s.deg j = 0)

/-- Step-counting weight: each id contributes 1 while in `ready`, 2
while running, 3 in `completed`, 4 once received; every transition
raises it by at least one, which bounds the length of every run. -/
def wt (s : SState) : Nat :=
  s.queue.length + 2 * s.running.length + 3 * s.done.length + 4 * s.received.length

end Ub

namespace Ub

/-! ## Theorems -/

theorem trimSpace_eq_empty_of_all_space (s : String)
    (h : ∀ c ∈ s.data, goIsSpace c = true) : trimSpace s = "" := by
  have h1 : s.data.dropWhile goIsSpace = [] := List.dropWhile_eq_nil_iff.mpr h
  simp [trimSpace, h1]

/-- C9: a URL that is empty or all white space makes
`FetchWithProgress` return an empty path and no error before creating
any directory, taking any per-key lock, emitting any progress event, or
calling into the download path. -/
theorem c9_blank_url_fetch_is_noop (env : CacheEnv) (dir url : String)
    (cb : Bool) (dres : Option String)
    (h : ∀ c ∈ url.data, goIsSpace c = true) :
    fetchWithProgress env dir url cb dres = (("", none), noEffects) := by
  unfold fetchWithProgress
  rw [trimSpace_eq_empty_of_all_space url h]
  simp

theorem c9_blank_url_fetch_is_noop_witness :
    fetchWithProgress ⟨fun u => u, fun _ => none⟩ "/cache" " \t " true none =
      (("", none), noEffects) :=
  c9_blank_url_fetch_is_noop _ _ _ _ _ (by decide)

/-- C4: when the final cache path already exists, `FetchWithProgress`
returns it without any call into the download path (hence without any
network request), and emits exactly one progress event — downloaded and
total equal to the cached size, `cached = true`, `done = true` — iff a
callback was supplied. -/
theorem c4_cache_hit_no_download (env : CacheEnv) (dir url : String)
    (cb : Bool) (dres : Option String) (size : Int)
    (hurl : ¬ trimSpace url = "")
    (hfs : env.fileSize (cachePathForKey dir (hash (env.canon url))) = some size) :
    fetchWithProgress env dir url cb dres =
      ((cachePathForKey dir (hash (env.canon url)), none),
       { madeDirs := [dir, goDir (cachePathForKey dir (hash (env.canon url)))],
         lockedKeys := [hash (env.canon url)],
         events :=
           if cb then
             [{ url := url, downloadedBytes := size, totalBytes := size,
                speedBytesPerSec := 0, cached := true, done := true }]
           else [],
         downloadCalls := [] }) := by
  unfold fetchWithProgress
  rw [if_neg hurl]
  simp only [hfs]

theorem c4_cache_hit_no_download_witness :
    fetchWithProgress ⟨fun u => u, fun _ => some 7⟩ "/cache" "https://x/b" true none =
      ((cachePathForKey "/cache" (hash "https://x/b"), none),
       { madeDirs := ["/cache", goDir (cachePathForKey "/cache" (hash "https://x/b"))],
         lockedKeys := [hash "https://x/b"],
         events := [{ url := "https://x/b", downloadedBytes := 7, totalBytes := 7,
                      speedBytesPerSec := 0, cached := true, done := true }],
         downloadCalls := [] }) := by
  have h := c4_cache_hit_no_download ⟨fun u => u, fun _ => some 7⟩ "/cache" "https://x/b"
    true none 7 (by decide) rfl
  simpa using h

theorem retryLoop_spec (fail cancel : Nat → Bool) (rnd : Nat → Nat) :
    ∀ fuel attempt, 1 ≤ attempt → attempt ≤ maxAttempts →
    attempt + fuel = maxAttempts + 1 →
    ∃ j, 1 ≤ j ∧ attempt + j - 1 ≤ maxAttempts ∧
      (retryLoop fail cancel rnd attempt fuel).2.1 = List.range' attempt j ∧
      (retryLoop fail cancel rnd attempt fuel).2.2 =
        (List.range' attempt j).dropLast.map (fun n => n * n * 200 + rnd n % 120) ∧
      ((retryLoop fail cancel rnd attempt fuel).1 = .ctxCanceled ↔
        (attempt + j - 1 < maxAttempts ∧ fail (attempt + j - 1) = true ∧
          cancel (attempt + j - 1) = true)) := by
  intro fuel
  induction fuel with
  | zero =>
      intro attempt h1 h3 hsum
      omega
  | succ fuel ih =>
      intro attempt h1 h3 hsum
      by_cases hfail : fail attempt = false
      · refine ⟨1, le_refl 1, by omega, ?_, ?_, ?_⟩
        · simp [retryLoop, hfail]
        · simp [retryLoop, hfail]
        · simp [retryLoop, hfail]
      · rw [Bool.not_eq_false] at hfail
        by_cases hmax : attempt = maxAttempts
        · subst hmax
          refine ⟨1, le_refl 1, by omega, ?_, ?_, ?_⟩
          · simp [retryLoop, hfail]
          · simp [retryLoop, hfail]
          · simp [retryLoop, hfail]
        · by_cases hcan : cancel attempt = true
          · refine ⟨1, le_refl 1, by omega, ?_, ?_, ?_⟩
            · simp [retryLoop, hfail, hmax, hcan]
            · simp [retryLoop, hfail, hmax, hcan]
            · simp only [retryLoop, hfail, hmax, hcan]
              simp only [Bool.true_eq_false, if_false, if_neg hmax, if_true]
              have hm3 : maxAttempts = 3 := rfl
              have hlt : attempt < maxAttempts := by
                rw [hm3] at h3 hmax ⊢
                omega
              simp only [Nat.add_sub_cancel]
              constructor
              · intro
                exact ⟨hlt, hfail, hcan⟩
              · intro
                trivial
          · obtain ⟨j, hj1, hj3, hatts, hwaits, hiff⟩ :=
              ih (attempt + 1) (by omega) (by omega) (by omega)
            refine ⟨j + 1, by omega, by omega, ?_, ?_, ?_⟩
            · simp only [retryLoop, hfail, hmax, hcan]
              simp only [Bool.true_eq_false, if_false, if_neg hmax]
              rw [List.range'_succ]
              simp [hatts]
            · simp only [retryLoop, hfail, hmax, hcan]
              simp only [Bool.true_eq_false, if_false, if_neg hmax]
              rw [List.range'_succ, List.dropLast_cons_of_ne_nil, List.map_cons]
              · simp [hatts, hwaits]
              · rw [← hatts]
                intro hnil
                rw [hatts] at hnil
                have : j = 0 := by
                  by_contra hj0
                  obtain ⟨j', rfl⟩ := Nat.exists_eq_succ_of_ne_zero hj0
                  simp [List.range'_succ] at hnil
                omega
            · simp only [retryLoop, hfail, hmax, hcan]
              simp only [Bool.true_eq_false, if_false, if_neg hmax]
              have : attempt + (j + 1) - 1 = attempt + 1 + j - 1 := by omega
              rw [this]
              exact hiff

/-- C6: `downloadWithRetry` makes at most three attempts, numbered
consecutively from 1; after each failed non-final attempt *n* that the
cancellation signal does not interrupt it waits `n*n*200` ms plus a
jitter below 120 ms; and it ends in a cancellation result exactly when
the last attempt made was a failed non-final attempt whose wait the
cancellation signal interrupted (so no further attempt follows). -/
theorem c6_retry_schedule (fail cancel : Nat → Bool) (rnd : Nat → Nat) :
    ∃ k, 1 ≤ k ∧ k ≤ 3 ∧
      (downloadWithRetry fail cancel rnd).2.1 = List.range' 1 k ∧
      (downloadWithRetry fail cancel rnd).2.2 =
        ((downloadWithRetry fail cancel rnd).2.1.dropLast).map
          (fun n => n * n * 200 + rnd n % 120) ∧
      (∀ w ∈ (downloadWithRetry fail cancel rnd).2.2,
        ∃ n ∈ (downloadWithRetry fail cancel rnd).2.1,
          n * n * 200 ≤ w ∧ w < n * n * 200 + 120) ∧
      ((downloadWithRetry fail cancel rnd).1 = .ctxCanceled ↔
        (k < 3 ∧ fail k = true ∧ cancel k = true)) := by
  have hm3 : maxAttempts = 3 := rfl
  obtain ⟨j, hj1, hj3, hatts, hwaits, hiff⟩ :=
    retryLoop_spec fail cancel rnd maxAttempts 1 (le_refl 1) (by decide) rfl
  rw [hm3] at hj3
  have heq : 1 + j - 1 = j := by omega
  rw [heq, hm3] at hiff
  simp only [downloadWithRetry]
  refine ⟨j, hj1, by omega, hatts, ?_, ?_, hiff⟩
  · rw [hatts, hwaits]
  · intro w hw
    rw [hwaits] at hw
    obtain ⟨n, hn, rfl⟩ := List.mem_map.mp hw
    refine ⟨n, ?_, Nat.le_add_right _ _, by
      have := Nat.mod_lt (rnd n) (y := 120) (by omega)
      omega⟩
    rw [hatts]
    exact List.dropLast_subset _ hn

theorem lexLeChars_total : ∀ as bs, lexLeChars as bs = true ∨ lexLeChars bs as = true := by
  intro as
  induction as with
  | nil => intro bs; left; rfl
  | cons a as ih =>
      intro bs
      cases bs with
      | nil => right; rfl
      | cons b bs =>
          rcases Nat.lt_trichotomy a.toNat b.toNat with h | h | h
          · left
            simp [lexLeChars, h]
          · rcases ih bs with h2 | h2
            · left
              simp [lexLeChars, h, h2]
            · right
              simp [lexLeChars, h.symm, h2]
          · right
            simp [lexLeChars, h]

theorem lexLeChars_trans :
    ∀ as bs cs, lexLeChars as bs = true → lexLeChars bs cs = true →
      lexLeChars as cs = true := by
  intro as
  induction as with
  | nil => intro bs cs _ _; rfl
  | cons a as ih =>
      intro bs cs h1 h2
      cases bs with
      | nil => simp [lexLeChars] at h1
      | cons b bs =>
          cases cs with
          | nil => simp [lexLeChars] at h2
          | cons c cs =>
              simp only [lexLeChars, Bool.or_eq_true, Bool.and_eq_true,
                decide_eq_true_eq] at h1 h2 ⊢
              rcases h1 with h1 | ⟨hab, h1⟩
              · rcases h2 with h2 | ⟨hbc, h2⟩
                · left; omega
                · left; omega
              · rcases h2 with h2 | ⟨hbc, h2⟩
                · left; omega
                · exact Or.inr ⟨by omega, ih bs cs h1 h2⟩

theorem strLe_total (s t : String) : strLe s t = true ∨ strLe t s = true :=
  lexLeChars_total s.data t.data

theorem strLe_trans {s t u : String} (h1 : strLe s t = true) (h2 : strLe t u = true) :
    strLe s u = true :=
  lexLeChars_trans s.data t.data u.data h1 h2

theorem insertSorted_perm (x : String) : ∀ l, (insertSorted x l).Perm (x :: l) := by
  intro l
  induction l with
  | nil => exact List.Perm.refl _
  | cons y ys ih =>
      by_cases h : strLe x y = true
      · simp [insertSorted, h]
      · simp only [insertSorted, if_neg h]
        exact (ih.cons y).trans (List.Perm.swap x y ys)

theorem mem_insertSorted (x a : String) (l : List String) :
    a ∈ insertSorted x l ↔ a = x ∨ a ∈ l := by
  rw [(insertSorted_perm x l).mem_iff]
  simp

theorem pairwise_insertSorted (x : String) :
    ∀ l, List.Pairwise (fun a b => strLe a b = true) l →
      List.Pairwise (fun a b => strLe a b = true) (insertSorted x l) := by
  intro l
  induction l with
  | nil => intro _; simp [insertSorted]
  | cons y ys ih =>
      intro hp
      rcases List.pairwise_cons.mp hp with ⟨hy, hys⟩
      by_cases h : strLe x y = true
      · simp only [insertSorted, if_pos h]
        refine List.pairwise_cons.mpr ⟨?_, hp⟩
        intro z hz
        rcases List.mem_cons.mp hz with rfl | hz
        · exact h
        · exact strLe_trans h (hy z hz)
      · simp only [insertSorted, if_neg h]
        refine List.pairwise_cons.mpr ⟨?_, ih hys⟩
        intro z hz
        rcases (mem_insertSorted x z ys).mp hz with rfl | hz
        · rcases strLe_total z y with h2 | h2
          · exact absurd h2 h
          · exact h2
        · exact hy z hz

theorem sortStrings_perm : ∀ l : List String, (sortStrings l).Perm l := by
  intro l
  induction l with
  | nil => exact List.Perm.refl _
  | cons a l ih =>
      exact ((insertSorted_perm a (sortStrings l)).trans (ih.cons a))

theorem mem_sortStrings (a : String) (l : List String) :
    a ∈ sortStrings l ↔ a ∈ l :=
  (sortStrings_perm l).mem_iff

theorem sortStrings_sorted : ∀ l : List String, sortedStr (sortStrings l) := by
  intro l
  induction l with
  | nil => exact List.Pairwise.nil
  | cons a l ih => exact pairwise_insertSorted a (sortStrings l) ih

theorem sortStrings_nodup {l : List String} (h : l.Nodup) : (sortStrings l).Nodup :=
  (sortStrings_perm l).nodup_iff.mpr h

theorem decStep_fst (st : (String → Int) × List String) (dep n : String) :
    (decStep st dep).1 n = if n = dep then st.1 n - 1 else st.1 n := by
  by_cases hnd : n = dep
  · subst hnd
    simp only [decStep]
    split <;> simp
  · simp only [decStep]
    split <;> simp [hnd]

theorem decStep_snd_mem (st : (String → Int) × List String) (dep m : String) :
    m ∈ (decStep st dep).2 ↔ m ∈ st.2 ∨ (m = dep ∧ st.1 dep = 1) := by
  simp only [decStep]
  split
  · rename_i h
    simp only [List.mem_append, List.mem_singleton]
    constructor
    · rintro (hm | rfl)
      · exact Or.inl hm
      · exact Or.inr ⟨rfl, by omega⟩
    · rintro (hm | ⟨rfl, _⟩)
      · exact Or.inl hm
      · exact Or.inr rfl
  · rename_i h
    constructor
    · intro hm
      exact Or.inl hm
    · rintro (hm | ⟨rfl, h1⟩)
      · exact hm
      · omega

theorem decFold_deg :
    ∀ (ds : List String) (st : (String → Int) × List String) (n : String),
      ((ds.foldl decStep st).1) n = st.1 n - (List.count n ds : Int) := by
  intro ds
  induction ds with
  | nil => intro st n; simp
  | cons d rest ih =>
      intro st n
      rw [List.foldl_cons, ih]
      rw [decStep_fst]
      by_cases hnd : n = d
      · subst hnd
        have hcnt : List.count n (n :: rest) = List.count n rest + 1 := by
          simp [List.count_cons]
        rw [if_pos rfl, hcnt]
        push_cast
        omega
      · have hbeq : (d == n) = false := beq_eq_false_iff_ne.mpr (fun h => hnd h.symm)
        have hcnt : List.count n (d :: rest) = List.count n rest := by
          simp [List.count_cons, hbeq]
        rw [if_neg hnd, hcnt]

theorem decFold_mem :
    ∀ (ds : List String) (st : (String → Int) × List String) (m : String),
      m ∈ (ds.foldl decStep st).2 ↔
        m ∈ st.2 ∨ (1 ≤ st.1 m ∧ st.1 m ≤ (List.count m ds : Int)) := by
  intro ds
  induction ds with
  | nil =>
      intro st m
      simp only [List.foldl_nil, List.count_nil, Nat.cast_zero]
      constructor
      · exact Or.inl
      · rintro (hm | ⟨h1, h2⟩)
        · exact hm
        · omega
  | cons d rest ih =>
      intro st m
      rw [List.foldl_cons, ih, decStep_snd_mem, decStep_fst]
      by_cases hmd : m = d
      · subst hmd
        have hcnt : List.count m (m :: rest) = List.count m rest + 1 := by
          simp [List.count_cons]
        rw [if_pos rfl, hcnt]
        push_cast
        constructor
        · rintro ((hm | ⟨_, h1⟩) | ⟨h1, h2⟩)
          · exact Or.inl hm
          · exact Or.inr ⟨by omega, by omega⟩
          · exact Or.inr ⟨by omega, by omega⟩
        · rintro (hm | ⟨h1, h2⟩)
          · exact Or.inl (Or.inl hm)
          · by_cases he : st.1 m = 1
            · exact Or.inl (Or.inr ⟨rfl, he⟩)
            · exact Or.inr ⟨by omega, by omega⟩
      · have hbeq : (d == m) = false := beq_eq_false_iff_ne.mpr (fun h => hmd h.symm)
        have hcnt : List.count m (d :: rest) = List.count m rest := by
          simp [List.count_cons, hbeq]
        rw [if_neg hmd, hcnt]
        constructor
        · rintro ((hm | ⟨he, _⟩) | ⟨h1, h2⟩)
          · exact Or.inl hm
          · exact absurd he hmd
          · exact Or.inr ⟨h1, h2⟩
        · rintro (hm | ⟨h1, h2⟩)
          · exact Or.inl (Or.inl hm)
          · exact Or.inr ⟨h1, h2⟩

theorem processLevel_eq_flatMap (fs : Closure) :
    ∀ (level : List String) (st : (String → Int) × List String),
      level.foldl (processNode fs) st =
        (level.flatMap (dependentsOf fs)).foldl decStep st := by
  intro level
  induction level with
  | nil => intro st; rfl
  | cons n rest ih =>
      intro st
      rw [List.foldl_cons, ih, List.flatMap_cons, List.foldl_append]
      rfl

theorem depsOf_eq_nil_of_not_mem (fs : Closure) (n : String) (h : n ∉ keysOf fs) :
    depsOf fs n = [] := by
  have hfind : fs.find? (fun p => p.1 == n) = none := by
    rw [List.find?_eq_none]
    intro p hp hbeq
    exact h (by
      have : p.1 = n := by simpa using hbeq
      rw [← this]
      exact List.mem_map_of_mem Prod.fst hp)
  simp [depsOf, hfind]

theorem mem_keys_of_deps_ne_nil (fs : Closure) (n : String)
    (h : depsOf fs n ≠ []) : n ∈ keysOf fs := by
  by_contra hn
  exact h (depsOf_eq_nil_of_not_mem fs n hn)

theorem depsOf_cons (p : String × List String) (rest : Closure) (m : String) :
    depsOf (p :: rest) m = if p.1 = m then p.2 else depsOf rest m := by
  by_cases h : p.1 = m
  · simp [depsOf, List.find?_cons_of_pos, h]
  · have hb : ¬ ((p.1 == m) = true) := by simpa using h
    rw [if_neg h]
    simp only [depsOf]
    rw [@List.find?_cons_of_neg _ (fun q => q.1 == m) p rest hb]

theorem count_dependentsOf (fs : Closure) (hnd : (keysOf fs).Nodup) (d m : String) :
    List.count m (dependentsOf fs d) = List.count d (depsOf fs m) := by
  induction fs with
  | nil => simp [dependentsOf, depsOf]
  | cons p rest ih =>
      simp only [keysOf, List.map_cons] at hnd
      rw [List.nodup_cons] at hnd
      obtain ⟨hp, hrest⟩ := hnd
      have ihr := ih hrest
      rw [depsOf_cons]
      have hcons : dependentsOf (p :: rest) d =
          ((p.2.filter (fun x => x == d)).map (fun _ => p.1)) ++ dependentsOf rest d := rfl
      rw [hcons, List.count_append]
      have hmap : ((p.2.filter (fun x => x == d)).map (fun _ => p.1)) =
          List.replicate (p.2.filter (fun x => x == d)).length p.1 :=
        List.map_const _ _
      rw [hmap, List.count_replicate, ihr]
      by_cases h : p.1 = m
      · subst h
        have h0 : List.count d (depsOf rest p.1) = 0 := by
          rw [depsOf_eq_nil_of_not_mem rest p.1 hp]
          rfl
        rw [h0, if_pos rfl, if_pos (beq_self_eq_true p.1)]
        rw [← List.countP_eq_length_filter, ← List.count_eq_countP]
        omega
      · have hbeq : (p.1 == m) = false := beq_eq_false_iff_ne.mpr h
        rw [if_neg h, if_neg (by simp [hbeq])]
        omega

theorem count_flatMap_dependents (fs : Closure) (hnd : (keysOf fs).Nodup) :
    ∀ (level : List String) (m : String),
      List.count m (level.flatMap (dependentsOf fs)) =
        (level.map (fun d => List.count d (depsOf fs m))).sum := by
  intro level
  induction level with
  | nil => intro m; rfl
  | cons x rest ih =>
      intro m
      rw [List.flatMap_cons, List.count_append, List.map_cons, List.sum_cons,
        count_dependentsOf fs hnd, ih]

theorem countP_mem_cons_split (a : String) (rest : List String) (ha : a ∉ rest) :
    ∀ l : List String,
      l.countP (fun x => decide (x ∈ a :: rest)) =
        List.count a l + l.countP (fun x => decide (x ∈ rest)) := by
  intro l
  induction l with
  | nil => rfl
  | cons c l2 ih =>
      simp only [List.countP_cons, List.count_cons, ih]
      by_cases hca : c = a
      · subst hca
        have h1 : decide (c ∈ c :: rest) = true := by simp
        have h2 : decide (c ∈ rest) = false := by simpa using ha
        simp [h1, h2]
        omega
      · have hbeq : (c == a) = false := beq_eq_false_iff_ne.mpr hca
        have h1 : decide (c ∈ a :: rest) = decide (c ∈ rest) := by
          simp [List.mem_cons, hca]
        simp [h1, hbeq, hca] <;> omega

theorem sum_count_eq_countP (l : List String) :
    ∀ level : List String, level.Nodup →
      (level.map (fun d => List.count d l)).sum =
        l.countP (fun x => decide (x ∈ level)) := by
  intro level
  induction level with
  | nil =>
      intro _
      simp [List.countP_eq_length_filter]
  | cons a rest ih =>
      intro hnd
      rw [List.nodup_cons] at hnd
      rw [List.map_cons, List.sum_cons, ih hnd.2, countP_mem_cons_split a rest hnd.1]

theorem cnt_eq_countP (fs : Closure) (S : List String) (n : String) :
    cnt fs S n = (depsOf fs n).countP (fun d => decide (d ∉ S)) := by
  rw [cnt, List.countP_eq_length_filter]

theorem cnt_nil (fs : Closure) (n : String) :
    cnt fs [] n = (depsOf fs n).length := by
  simp [cnt]

theorem cnt_eq_zero_iff (fs : Closure) (S : List String) (n : String) :
    cnt fs S n = 0 ↔ ∀ d ∈ depsOf fs n, d ∈ S := by
  rw [cnt, List.length_eq_zero, List.filter_eq_nil_iff]
  constructor
  · intro h d hd
    by_contra hds
    exact h d hd (by simpa using hds)
  · intro h d hd hdec
    rw [decide_eq_true_eq] at hdec
    exact hdec (h d hd)

theorem countP_split_disjoint (S T : List String) (hdisj : ∀ x ∈ T, x ∉ S) :
    ∀ l : List String,
      l.countP (fun d => decide (d ∉ S)) =
        l.countP (fun d => decide (d ∉ S ++ T)) + l.countP (fun d => decide (d ∈ T)) := by
  intro l
  induction l with
  | nil => rfl
  | cons c l2 ih =>
      simp only [List.countP_cons, ih]
      by_cases hT : c ∈ T
      · have hS : c ∉ S := hdisj c hT
        have h1 : decide (c ∉ S) = true := by simpa using hS
        have h2 : decide (c ∉ S ++ T) = false := by
          simp [List.mem_append, hT]
        have h3 : decide (c ∈ T) = true := by simpa using hT
        simp [h1, h2, h3] <;> omega
      · by_cases hS : c ∈ S
        · have h1 : decide (c ∉ S) = false := by simpa using hS
          have h2 : decide (c ∉ S ++ T) = false := by
            simp [List.mem_append, hS]
          have h3 : decide (c ∈ T) = false := by simpa using hT
          simp [h1, h2, h3] <;> omega
        · have h1 : decide (c ∉ S) = true := by simpa using hS
          have h2 : decide (c ∉ S ++ T) = true := by
            simp [List.mem_append, hS, hT]
          have h3 : decide (c ∈ T) = false := by simpa using hT
          simp [h1, h2, h3] <;> omega

/-- The counter identity for one round: unprocessed occurrences over
`S` split into those still unprocessed over `S ++ T` and those inside
`T`, when `T` is disjoint from `S`. -/
theorem cnt_append_split (fs : Closure) (S T : List String)
    (hdisj : ∀ x ∈ T, x ∉ S) (n : String) :
    cnt fs S n = cnt fs (S ++ T) n + (depsOf fs n).countP (fun d => decide (d ∈ T)) := by
  rw [cnt_eq_countP, cnt_eq_countP]
  exact countP_split_disjoint S T hdisj (depsOf fs n)

theorem processLevel_fst (fs : Closure) (hknd : (keysOf fs).Nodup)
    (deg : String → Int) (level : List String) (hlnd : level.Nodup) (n : String) :
    (processLevel fs deg level).1 n =
      deg n - ((depsOf fs n).countP (fun d => decide (d ∈ level)) : Int) := by
  have h1 : processLevel fs deg level =
      (level.flatMap (dependentsOf fs)).foldl decStep (deg, []) :=
    processLevel_eq_flatMap fs level (deg, [])
  rw [h1, decFold_deg, count_flatMap_dependents fs hknd,
    sum_count_eq_countP (depsOf fs n) level hlnd]

theorem processLevel_mem (fs : Closure) (hknd : (keysOf fs).Nodup)
    (deg : String → Int) (level : List String) (hlnd : level.Nodup) (m : String) :
    m ∈ (processLevel fs deg level).2 ↔
      1 ≤ deg m ∧ deg m ≤ ((depsOf fs m).countP (fun d => decide (d ∈ level)) : Int) := by
  have h1 : processLevel fs deg level =
      (level.flatMap (dependentsOf fs)).foldl decStep (deg, []) :=
    processLevel_eq_flatMap fs level (deg, [])
  rw [h1, decFold_mem, count_flatMap_dependents fs hknd,
    sum_count_eq_countP (depsOf fs m) level hlnd]
  simp

theorem cnt_pos_deps_ne_nil (fs : Closure) (S : List String) (n : String)
    (h : 1 ≤ cnt fs S n) : depsOf fs n ≠ [] := by
  intro hnil
  rw [cnt, hnil] at h
  simp at h

/-- One round of the loop preserves every invariant, with the
processed prefix extended by the current level. -/
theorem round_spec (fs : Closure) (hknd : (keysOf fs).Nodup)
    (deg : String → Int) (level order : List String)
    (hdeg : ∀ n, deg n = (cnt fs order n : Int))
    (hordernd : order.Nodup) (hlevelnd : level.Nodup)
    (hdisj : ∀ n ∈ level, n ∉ order)
    (hclosedorder : ∀ n ∈ order, ∀ d ∈ depsOf fs n, d ∈ order)
    (hchar : ∀ n, n ∈ level ↔
      (n ∈ keysOf fs ∧ n ∉ order ∧ ∀ d ∈ depsOf fs n, d ∈ order))
    (horderkeys : ∀ n ∈ order, n ∈ keysOf fs) :
    (∀ n, (processLevel fs deg level).1 n = (cnt fs (order ++ level) n : Int)) ∧
    (order ++ level).Nodup ∧
    (sortStrings (processLevel fs deg level).2.dedup).Nodup ∧
    (∀ n ∈ sortStrings (processLevel fs deg level).2.dedup, n ∉ order ++ level) ∧
    (∀ n ∈ order ++ level, ∀ d ∈ depsOf fs n, d ∈ order ++ level) ∧
    (∀ n, n ∈ sortStrings (processLevel fs deg level).2.dedup ↔
      (n ∈ keysOf fs ∧ n ∉ order ++ level ∧ ∀ d ∈ depsOf fs n, d ∈ order ++ level)) ∧
    sortedStr (sortStrings (processLevel fs deg level).2.dedup) ∧
    (∀ n ∈ order ++ level, n ∈ keysOf fs) := by
  have hsplit : ∀ n, cnt fs order n =
      cnt fs (order ++ level) n + (depsOf fs n).countP (fun d => decide (d ∈ level)) :=
    fun n => cnt_append_split fs order level hdisj n
  have hmem : ∀ m, m ∈ sortStrings (processLevel fs deg level).2.dedup ↔
      (m ∈ keysOf fs ∧ m ∉ order ++ level ∧ ∀ d ∈ depsOf fs m, d ∈ order ++ level) := by
    intro m
    rw [mem_sortStrings, List.mem_dedup,
      processLevel_mem fs hknd deg level hlevelnd m, hdeg m]
    constructor
    · rintro ⟨h1, h2⟩
      have hz : cnt fs (order ++ level) m = 0 := by
        have := hsplit m
        omega
      have hk : m ∈ keysOf fs := by
        refine mem_keys_of_deps_ne_nil fs m (cnt_pos_deps_ne_nil fs order m ?_)
        omega
      have hno : m ∉ order := by
        intro hmo
        have : cnt fs order m = 0 :=
          (cnt_eq_zero_iff fs order m).mpr (hclosedorder m hmo)
        omega
      have hnl : m ∉ level := by
        intro hml
        have : cnt fs order m = 0 :=
          (cnt_eq_zero_iff fs order m).mpr ((hchar m).mp hml).2.2
        omega
      refine ⟨hk, ?_, (cnt_eq_zero_iff fs (order ++ level) m).mp hz⟩
      rw [List.mem_append]
      rintro (h | h)
      · exact hno h
      · exact hnl h
    · rintro ⟨hk, hno1, hsub⟩
      have hz : cnt fs (order ++ level) m = 0 :=
        (cnt_eq_zero_iff fs (order ++ level) m).mpr hsub
      have hpos : 1 ≤ cnt fs order m := by
        by_contra hc
        have h0 : cnt fs order m = 0 := by omega
        have hsubo : ∀ d ∈ depsOf fs m, d ∈ order :=
          (cnt_eq_zero_iff fs order m).mp h0
        have : m ∈ level :=
          (hchar m).mpr ⟨hk, fun hmo => hno1 (List.mem_append_left _ hmo), hsubo⟩
        exact hno1 (List.mem_append_right _ this)
      have := hsplit m
      constructor
      · omega
      · omega
  have hdisjoint : order.Disjoint level := fun a ha hal => hdisj a hal ha
  refine ⟨?_, List.Nodup.append hordernd hlevelnd hdisjoint,
    sortStrings_nodup (List.nodup_dedup _), ?_, ?_, hmem,
    sortStrings_sorted _, ?_⟩
  · intro n
    rw [processLevel_fst fs hknd deg level hlevelnd n, hdeg n]
    have := hsplit n
    omega
  · intro n hn
    exact ((hmem n).mp hn).2.1
  · intro n hn d hd
    rcases List.mem_append.mp hn with h | h
    · exact List.mem_append_left _ (hclosedorder n h d hd)
    · exact List.mem_append_left _ (((hchar n).mp h).2.2 d hd)
  · intro n hn
    rcases List.mem_append.mp hn with h | h
    · exact horderkeys n h
    · exact ((hchar n).mp h).1

theorem nodup_subset_length {l S : List String} (hnd : l.Nodup) (hsub : ∀ a ∈ l, a ∈ S) :
    l.length ≤ S.length := by
  calc l.length = l.toFinset.card := (List.toFinset_card_of_nodup hnd).symm
    _ ≤ S.toFinset.card := Finset.card_le_card (fun a ha => by
        rw [List.mem_toFinset] at ha ⊢
        exact hsub a ha)
    _ ≤ S.length := List.toFinset_card_le S

/-- Loop correctness: from any state satisfying the invariants, with
enough fuel, the loop drains the level, producing layers that satisfy
`LayersGood`, an order equal to their concatenation, and a final
processed set with no ready key left outside it. -/
theorem planLoop_spec (fs : Closure) (hknd : (keysOf fs).Nodup) :
    ∀ (fuel : Nat) (deg : String → Int) (level order : List String)
      (layers : List (List String)),
      (∀ n, deg n = (cnt fs order n : Int)) →
      order.Nodup → level.Nodup → (∀ n ∈ level, n ∉ order) →
      (∀ n ∈ order, ∀ d ∈ depsOf fs n, d ∈ order) →
      (∀ n, n ∈ level ↔
        (n ∈ keysOf fs ∧ n ∉ order ∧ ∀ d ∈ depsOf fs n, d ∈ order)) →
      sortedStr level →
      (∀ n ∈ order, n ∈ keysOf fs) →
      fs.length + 1 ≤ fuel + order.length →
      ∃ L : List (List String),
        planLoop fs fuel deg level order layers = (order ++ L.flatten, layers ++ L) ∧
        LayersGood fs order L ∧
        NoReady fs (order ++ L.flatten) ∧
        (order ++ L.flatten).Nodup ∧
        (∀ n ∈ order ++ L.flatten, n ∈ keysOf fs) := by
  intro fuel
  induction fuel with
  | zero =>
      intro deg level order layers hdeg hond hlnd hdisj hcl hchar hsort hok hfuel
      cases level with
      | nil =>
          refine ⟨[], ?_, trivial, ?_, ?_, ?_⟩
          · simp [planLoop]
          · intro n hk hno hsub
            exact absurd ((hchar n).mpr ⟨hk, by simpa using hno, by simpa using hsub⟩)
              (List.not_mem_nil n)
          · simpa using hond
          · simpa using hok
      | cons x rest =>
          exfalso
          have h1 : order.length ≤ (keysOf fs).length := nodup_subset_length hond hok
          have h2 : (keysOf fs).length = fs.length := List.length_map fs Prod.fst
          omega
  | succ fuel ih =>
      intro deg level order layers hdeg hond hlnd hdisj hcl hchar hsort hok hfuel
      cases level with
      | nil =>
          refine ⟨[], ?_, trivial, ?_, ?_, ?_⟩
          · simp [planLoop]
          · intro n hk hno hsub
            exact absurd ((hchar n).mpr ⟨hk, by simpa using hno, by simpa using hsub⟩)
              (List.not_mem_nil n)
          · simpa using hond
          · simpa using hok
      | cons x rest =>
          obtain ⟨hdeg1, hond1, hlnd1, hdisj1, hcl1, hchar1, hsort1, hok1⟩ :=
            round_spec fs hknd deg (x :: rest) order hdeg hond hlnd hdisj hcl hchar hok
          obtain ⟨L, hrun, hgood, hready, hnd2, hkeys2⟩ :=
            ih (processLevel fs deg (x :: rest)).1
              (sortStrings (processLevel fs deg (x :: rest)).2.dedup)
              (order ++ (x :: rest)) (layers ++ [x :: rest])
              hdeg1 hond1 hlnd1 hdisj1 hcl1 hchar1 hsort1 hok1
              (by
                have hlen : (order ++ (x :: rest)).length = order.length + rest.length + 1 := by
                  simp [List.length_append]
                  omega
                omega)
          refine ⟨(x :: rest) :: L, ?_, ?_, ?_, ?_, ?_⟩
          · show planLoop fs (fuel + 1) deg (x :: rest) order layers = _
            rw [planLoop, hrun]
            simp [List.append_assoc]
          · exact ⟨hsort, hlnd, hchar, hgood⟩
          · intro n hk hno hsub
            refine hready n hk ?_ ?_
            · simpa [List.mem_append] using hno
            · intro d hd
              have := hsub d hd
              simpa [List.mem_append] using this
          · simpa [List.append_assoc] using hnd2
          · intro n hn
            refine hkeys2 n ?_
            simpa [List.mem_append] using hn

/-- The state `BuildPlan` hands to the loop satisfies the invariants,
so the loop conclusions hold for the whole run. -/
theorem buildPlan_loop_spec (fs : Closure) (hknd : (keysOf fs).Nodup) :
    ∃ L : List (List String),
      planLoop fs (fs.length + 1) (initDeg fs) (initLevel fs) [] [] =
        (L.flatten, L) ∧
      LayersGood fs [] L ∧ NoReady fs L.flatten ∧ L.flatten.Nodup ∧
      (∀ n ∈ L.flatten, n ∈ keysOf fs) := by
  have hchar : ∀ n, n ∈ initLevel fs ↔
      (n ∈ keysOf fs ∧ n ∉ ([] : List String) ∧ ∀ d ∈ depsOf fs n, d ∈ ([] : List String)) := by
    intro n
    rw [initLevel, mem_sortStrings, List.mem_filter]
    constructor
    · rintro ⟨hk, hz⟩
      rw [decide_eq_true_eq] at hz
      have hz2 : depsOf fs n = [] := by
        have : (depsOf fs n).length = 0 := by
          have := hz
          simp only [initDeg] at this
          omega
        exact List.length_eq_zero.mp this
      exact ⟨hk, List.not_mem_nil n, by rw [hz2]; intro d hd; exact absurd hd (List.not_mem_nil d)⟩
    · rintro ⟨hk, _, hsub⟩
      refine ⟨hk, ?_⟩
      rw [decide_eq_true_eq]
      have hz2 : depsOf fs n = [] := by
        cases hdeps : depsOf fs n with
        | nil => rfl
        | cons d ds =>
            exfalso
            refine List.not_mem_nil d (hsub d ?_)
            rw [hdeps]
            exact List.mem_cons_self d ds
      simp [initDeg, hz2]
  obtain ⟨L, h1, h2, h3, h4, h5⟩ :=
    planLoop_spec fs hknd (fs.length + 1) (initDeg fs) (initLevel fs) [] []
      (fun n => by rw [cnt_nil]; rfl)
      List.nodup_nil
      (sortStrings_nodup (List.Nodup.filter _ hknd))
      (fun n _ => List.not_mem_nil n)
      (fun n hn => absurd hn (List.not_mem_nil n))
      hchar
      (sortStrings_sorted _)
      (fun n hn => absurd hn (List.not_mem_nil n))
      (by omega)
  exact ⟨L, by simpa using h1, h2, by simpa using h3, by simpa using h4,
    fun n hn => h5 n (by simpa using hn)⟩

theorem layersGood_get (fs : Closure) :
    ∀ (L : List (List String)) (base : List String), LayersGood fs base L →
      ∀ i (hi : i < L.length),
        sortedStr (L.get ⟨i, hi⟩) ∧ (L.get ⟨i, hi⟩).Nodup ∧
        (∀ n, n ∈ L.get ⟨i, hi⟩ ↔
          (n ∈ keysOf fs ∧ n ∉ base ++ (L.take i).flatten ∧
            ∀ d ∈ depsOf fs n, d ∈ base ++ (L.take i).flatten)) := by
  intro L
  induction L with
  | nil =>
      intro base _ i hi
      exact absurd hi (by simp)
  | cons lvl rest ih =>
      intro base hg i hi
      obtain ⟨hs, hn, hc, hrest⟩ := hg
      cases i with
      | zero =>
          refine ⟨hs, hn, ?_⟩
          intro n
          simpa using hc n
      | succ i =>
          have hi2 : i < rest.length := Nat.lt_of_succ_lt_succ hi
          obtain ⟨hs2, hn2, hc2⟩ := ih (base ++ lvl) hrest i hi2
          refine ⟨hs2, hn2, ?_⟩
          intro n
          rw [show (lvl :: rest).get ⟨i + 1, hi⟩ = rest.get ⟨i, hi2⟩ from rfl, hc2 n,
            List.take_succ_cons, List.flatten_cons, ← List.append_assoc]

theorem layersGood_promote (fs : Closure) :
    ∀ (L : List (List String)) (base : List String), LayersGood fs base L →
      ∀ i, i < L.length → ∀ n, n ∈ keysOf fs → n ∉ base →
        (∀ d ∈ depsOf fs n, d ∈ base ++ (L.take i).flatten) →
        n ∈ (L.take (i + 1)).flatten := by
  intro L
  induction L with
  | nil =>
      intro base _ i hi
      exact absurd hi (by simp)
  | cons lvl rest ih =>
      intro base hg i hi n hk hnb hdeps
      obtain ⟨hs, hnd, hc, hrest⟩ := hg
      cases i with
      | zero =>
          have hsub : ∀ d ∈ depsOf fs n, d ∈ base := by
            intro d hd
            have := hdeps d hd
            simpa using this
          have : n ∈ lvl := (hc n).mpr ⟨hk, hnb, hsub⟩
          simp [List.take_succ_cons, List.flatten_cons, this]
      | succ i =>
          by_cases hnl : n ∈ lvl
          · simp [List.take_succ_cons, List.flatten_cons, hnl]
          · have hi2 : i < rest.length := Nat.lt_of_succ_lt_succ hi
            have hnb2 : n ∉ base ++ lvl := by
              rw [List.mem_append]
              rintro (h | h)
              · exact hnb h
              · exact hnl h
            have hdeps2 : ∀ d ∈ depsOf fs n, d ∈ (base ++ lvl) ++ (rest.take i).flatten := by
              intro d hd
              have := hdeps d hd
              rw [List.take_succ_cons, List.flatten_cons, ← List.append_assoc] at this
              exact this
            have := ih (base ++ lvl) hrest i hi2 n hk hnb2 hdeps2
            rw [List.take_succ_cons, List.flatten_cons, List.mem_append]
            exact Or.inr this

theorem layersGood_edge_rank (fs : Closure) :
    ∀ (L : List (List String)) (base : List String), LayersGood fs base L →
      ∀ n ∈ L.flatten, ∀ d ∈ depsOf fs n,
        d ∈ base ∨ (d ∈ L.flatten ∧ layerRank L d < layerRank L n) := by
  intro L
  induction L with
  | nil =>
      intro base _ n hn
      simp at hn
  | cons lvl rest ih =>
      intro base hg n hn d hd
      obtain ⟨hs, hnd, hc, hrest⟩ := hg
      by_cases hnl : n ∈ lvl
      · exact Or.inl (((hc n).mp hnl).2.2 d hd)
      · have hnr : n ∈ rest.flatten := by
          rw [List.flatten_cons, List.mem_append] at hn
          rcases hn with h | h
          · exact absurd h hnl
          · exact h
        rcases ih (base ++ lvl) hrest n hnr d hd with hbase | ⟨hdf, hrank⟩
        · rcases List.mem_append.mp hbase with hb | hl
          · exact Or.inl hb
          · refine Or.inr ⟨by rw [List.flatten_cons, List.mem_append]; exact Or.inl hl, ?_⟩
            simp [layerRank, hl, hnl]
        · refine Or.inr ⟨by rw [List.flatten_cons, List.mem_append]; exact Or.inr hdf, ?_⟩
          by_cases hdl : d ∈ lvl
          · simp [layerRank, hdl, hnl]
          · simp only [layerRank, if_neg hdl, if_neg hnl]
            omega

theorem mem_keys_of_mem_deps (fs : Closure)
    (hclosed : ∀ p ∈ fs, ∀ d ∈ p.2, d ∈ keysOf fs) {n d : String}
    (hd : d ∈ depsOf fs n) : d ∈ keysOf fs := by
  unfold depsOf at hd
  cases hfind : fs.find? (fun p => p.1 == n) with
  | none =>
      rw [hfind] at hd
      simp at hd
  | some p =>
      rw [hfind] at hd
      exact hclosed p (List.mem_of_find?_eq_some hfind) d hd

theorem chain_rank_le (fs : Closure) (r : String → Nat)
    (hdec : ∀ a b, a ∈ keysOf fs → b ∈ depsOf fs a → b ∈ keysOf fs ∧ r b < r a) :
    ∀ (rest : List String) (x : String), x ∈ keysOf fs →
      List.Chain (fun a b => b ∈ depsOf fs a) x rest →
      ((x :: rest).getLast (List.cons_ne_nil x rest)) ∈ keysOf fs ∧
        r ((x :: rest).getLast (List.cons_ne_nil x rest)) ≤ r x := by
  intro rest
  induction rest with
  | nil =>
      intro x hx _
      exact ⟨by simpa [List.getLast_singleton] using hx, by simp [List.getLast_singleton]⟩
  | cons y rest2 ih =>
      intro x hx hch
      rcases List.chain_cons.mp hch with ⟨hxy, hch2⟩
      obtain ⟨hyk, hlt⟩ := hdec x y hx hxy
      obtain ⟨hk2, hle2⟩ := ih y hyk hch2
      rw [List.getLast_cons (List.cons_ne_nil y rest2)]
      exact ⟨hk2, by omega⟩

/-- A run whose layers cover every key excludes dependency cycles:
edges strictly decrease the layer rank. -/
theorem noCycle_of_layers (fs : Closure)
    (hclosed : ∀ p ∈ fs, ∀ d ∈ p.2, d ∈ keysOf fs)
    (L : List (List String)) (hg : LayersGood fs [] L)
    (hcover : ∀ n ∈ keysOf fs, n ∈ L.flatten) :
    ∀ l, ¬ IsDepCycle fs l := by
  intro l hcyc
  cases l with
  | nil => exact hcyc
  | cons x rest =>
      obtain ⟨hch, hclose⟩ := hcyc
      have hdec : ∀ a b, a ∈ keysOf fs → b ∈ depsOf fs a →
          b ∈ keysOf fs ∧ layerRank L b < layerRank L a := by
        intro a b ha hb
        rcases layersGood_edge_rank fs L [] hg a (hcover a ha) b hb with hbase | ⟨_, hlt⟩
        · exact absurd hbase (List.not_mem_nil b)
        · exact ⟨mem_keys_of_mem_deps fs hclosed hb, hlt⟩
      have hx : x ∈ keysOf fs := mem_keys_of_mem_deps fs hclosed hclose
      obtain ⟨hlk, hle⟩ := chain_rank_le fs (layerRank L) hdec rest x hx hch
      have := (hdec _ x hlk hclose).2
      omega

/-- When the drained state misses some key, a dependency cycle exists:
follow unsatisfied dependencies inside the missed set and apply the
pigeonhole principle. -/
theorem cycle_of_noReady (fs : Closure)
    (hclosed : ∀ p ∈ fs, ∀ d ∈ p.2, d ∈ keysOf fs)
    (S : List String) (hready : NoReady fs S)
    (hne : ∃ n ∈ keysOf fs, n ∉ S) : ∃ l, IsDepCycle fs l := by
  classical
  obtain ⟨n0, hn0k, hn0s⟩ := hne
  set U := (keysOf fs).filter (fun n => decide (n ∉ S)) with hUdef
  have hu0 : n0 ∈ U := List.mem_filter.mpr ⟨hn0k, by simpa using hn0s⟩
  have hstep : ∀ n, ∃ d, n ∈ U → (d ∈ U ∧ d ∈ depsOf fs n) := by
    intro n
    by_cases hn : n ∈ U
    · have hk : n ∈ keysOf fs := (List.mem_filter.mp hn).1
      have hns : n ∉ S := by simpa using (List.mem_filter.mp hn).2
      have hnr := hready n hk hns
      push_neg at hnr
      obtain ⟨d, hd, hds⟩ := hnr
      exact ⟨d, fun _ =>
        ⟨List.mem_filter.mpr ⟨mem_keys_of_mem_deps fs hclosed hd, by simpa using hds⟩, hd⟩⟩
    · exact ⟨n, fun h => absurd h hn⟩
  choose g hg using hstep
  have hseq : ∀ k, (g^[k]) n0 ∈ U := by
    intro k
    induction k with
    | zero => simpa using hu0
    | succ k ihk =>
        rw [Function.iterate_succ_apply']
        exact (hg _ ihk).1
  have hedge : ∀ k, (g^[k + 1]) n0 ∈ depsOf fs ((g^[k]) n0) := by
    intro k
    rw [Function.iterate_succ_apply']
    exact (hg _ (hseq k)).2
  have hcard : U.toFinset.card < (Finset.range (U.length + 1)).card := by
    rw [Finset.card_range]
    exact Nat.lt_succ_of_le (List.toFinset_card_le U)
  obtain ⟨a, _, b, _, hab, heq⟩ :=
    Finset.exists_ne_map_eq_of_card_lt_of_maps_to hcard
      (fun k _ => by rw [List.mem_toFinset]; exact hseq k)
  suffices hcore : ∀ a b : Nat, a < b → (g^[a]) n0 = (g^[b]) n0 → ∃ l, IsDepCycle fs l by
    rcases Nat.lt_trichotomy a b with h | h | h
    · exact hcore a b h heq
    · exact absurd h hab
    · exact hcore b a h heq.symm
  intro a b hab2 heq2
  obtain ⟨m, hm⟩ : ∃ m, b - a = m + 1 := ⟨b - a - 1, by omega⟩
  refine ⟨(g^[a]) n0 :: (List.range m).map (fun t => (g^[a + 1 + t]) n0), ?_, ?_⟩
  · rw [List.chain_iff_get]
    constructor
    · intro h
      rw [List.get_map]
      simp only [List.get_range]
      simpa using hedge a
    · intro i hilt
      rw [List.get_map, List.get_map]
      simp only [List.get_range]
      have : a + 1 + (i + 1) = (a + 1 + i) + 1 := by omega
      rw [this]
      exact hedge (a + 1 + i)
  · rcases Nat.eq_zero_or_pos m with hm0 | hmpos
    · subst hm0
      have hgl : ((g^[a]) n0 :: (List.range 0).map (fun t => (g^[a + 1 + t]) n0)).getLast
          (List.cons_ne_nil _ _) = (g^[a]) n0 := by
        simp [List.getLast_singleton]
      rw [hgl]
      have hb : b = a + 1 := by omega
      have := hedge a
      rw [← hb, ← heq2] at this
      exact this
    · have hlen : ((List.range m).map (fun t => (g^[a + 1 + t]) n0)) ≠ [] := by
        simp only [ne_eq, List.map_eq_nil_iff, List.range_eq_nil]
        omega
      rw [List.getLast_cons hlen]
      rw [List.getLast_eq_get]
      rw [List.get_map]
      simp only [List.get_range, List.length_map, List.length_range]
      have harg : a + 1 + (m - 1) = b - 1 := by omega
      rw [harg]
      have hlast : (g^[b]) n0 ∈ depsOf fs ((g^[b - 1]) n0) := by
        have := hedge (b - 1)
        have hb1 : b - 1 + 1 = b := by omega
        rw [hb1] at this
        exact this
      rw [← heq2] at hlast
      exact hlast

theorem mem_flatten_take (L : List (List String)) (k : Nat) (n : String) :
    n ∈ (L.take k).flatten ↔ ∃ j, ∃ hj : j < L.length, j < k ∧ n ∈ L.get ⟨j, hj⟩ := by
  rw [List.mem_flatten]
  constructor
  · rintro ⟨lvl, hlvl, hnl⟩
    rw [List.mem_iff_get] at hlvl
    obtain ⟨⟨j, hjlen⟩, hget⟩ := hlvl
    have h1 : j < k ⊓ L.length := by simpa [List.length_take] using hjlen
    have h2 : j < L.length := by omega
    have h3 : j < k := by omega
    refine ⟨j, h2, h3, ?_⟩
    rw [List.get_take L h2 h3, hget]
    exact hnl
  · rintro ⟨j, hj, hjk, hnl⟩
    refine ⟨L.get ⟨j, hj⟩, ?_, hnl⟩
    rw [List.mem_iff_get]
    have hjlen : j < (L.take k).length := by
      rw [List.length_take]
      omega
    exact ⟨⟨j, hjlen⟩, (List.get_take L hj hjk).symm⟩

theorem flatten_take_mono (L : List (List String)) {j k : Nat} (hjk : j ≤ k)
    {n : String} (h : n ∈ (L.take j).flatten) : n ∈ (L.take k).flatten := by
  rw [mem_flatten_take] at h ⊢
  obtain ⟨i, hi, hij, hmem⟩ := h
  exact ⟨i, hi, by omega, hmem⟩

/-- Unfolded form of `BuildPlan` when every dependency is a key: the
unknown-dependency scan finds nothing, and the run of the loop decides
success or the cycle error. -/
theorem buildPlan_run (fs : Closure) (hknd : (keysOf fs).Nodup)
    (hclosed : ∀ p ∈ fs, ∀ d ∈ p.2, d ∈ keysOf fs) :
    ∃ L : List (List String),
      BuildPlan fs = (if L.flatten.length = fs.length
        then Except.ok ⟨L.flatten, L⟩
        else Except.error "dependency graph contains a cycle") ∧
      LayersGood fs [] L ∧ NoReady fs L.flatten ∧ L.flatten.Nodup ∧
      (∀ n ∈ L.flatten, n ∈ keysOf fs) := by
  obtain ⟨L, hrun, h2, h3, h4, h5⟩ := buildPlan_loop_spec fs hknd
  have hfind : fs.find? (fun p => p.2.any fun d => !(keysOf fs).contains d) = none := by
    rw [List.find?_eq_none]
    intro p hp hany
    rw [List.any_eq_true] at hany
    obtain ⟨d, hd, hdc⟩ := hany
    have hno : d ∉ keysOf fs := by
      simpa [List.elem_iff] using hdc
    exact hno (hclosed p hp d hd)
  refine ⟨L, ?_, h2, h3, h4, h5⟩
  simp only [BuildPlan, hfind, hrun]

theorem coverage_of_length (fs : Closure) (hknd : (keysOf fs).Nodup)
    (L : List (List String)) (hnodup : L.flatten.Nodup)
    (hkeys : ∀ n ∈ L.flatten, n ∈ keysOf fs)
    (hlen : L.flatten.length = fs.length) :
    ∀ n ∈ keysOf fs, n ∈ L.flatten := by
  have hfin : L.flatten.toFinset = (keysOf fs).toFinset := by
    apply Finset.eq_of_subset_of_card_le
    · intro a ha
      rw [List.mem_toFinset] at ha ⊢
      exact hkeys a ha
    · rw [List.toFinset_card_of_nodup hknd, List.toFinset_card_of_nodup hnodup, hlen]
      have : (keysOf fs).length = fs.length := List.length_map fs Prod.fst
      omega
  intro n hn
  have h1 : n ∈ (keysOf fs).toFinset := List.mem_toFinset.mpr hn
  rw [← hfin] at h1
  exact List.mem_toFinset.mp h1

theorem cnt_eq_zero_of_subset (fs : Closure) {S T : List String}
    (hsub : ∀ x ∈ S, x ∈ T) {n : String} (hz : cnt fs S n = 0) : cnt fs T n = 0 :=
  (cnt_eq_zero_iff fs T n).mpr (fun d hd => hsub d ((cnt_eq_zero_iff fs S n).mp hz d hd))

/-- C7: over a duplicate-free, dependency-closed closure, the plan
builder succeeds on cycle-free inputs with `layers[i]` holding exactly
the keys whose in-degree counter reaches zero at round `i`, each layer
lexicographically sorted; the closure `a, b(a), c(a), d(b, c)` yields
exactly the layers `[a], [b, c], [d]`; and an input containing a
dependency cycle yields the cycle error. -/
theorem c7_buildPlan_layers (fs : Closure) (hknd : (keysOf fs).Nodup)
    (hclosed : ∀ p ∈ fs, ∀ d ∈ p.2, d ∈ keysOf fs) :
    ((∀ l, ¬ IsDepCycle fs l) →
      ∃ plan, BuildPlan fs = .ok plan ∧
        ∀ i, ∀ hi : i < plan.layers.length,
          sortedStr (plan.layers.get ⟨i, hi⟩) ∧
          ∀ n, n ∈ plan.layers.get ⟨i, hi⟩ ↔
            (n ∈ keysOf fs ∧ cnt fs ((plan.layers.take i).flatten) n = 0 ∧
              (i = 0 ∨ 0 < cnt fs ((plan.layers.take (i - 1)).flatten) n))) ∧
    ((∃ l, IsDepCycle fs l) →
      BuildPlan fs = .error "dependency graph contains a cycle") ∧
    BuildPlan [("a", []), ("b", ["a"]), ("c", ["a"]), ("d", ["b", "c"])] =
      .ok ⟨["a", "b", "c", "d"], [["a"], ["b", "c"], ["d"]]⟩ := by
  obtain ⟨L, hBP, hgood, hready, hnodup, hkeys⟩ := buildPlan_run fs hknd hclosed
  refine ⟨?_, ?_, rfl⟩
  · intro hnc
    have hcover : ∀ n ∈ keysOf fs, n ∈ L.flatten := by
      by_contra hc
      push_neg at hc
      obtain ⟨l, hl⟩ := cycle_of_noReady fs hclosed L.flatten hready hc
      exact hnc l hl
    have hlen : L.flatten.length = fs.length := by
      have h1 : L.flatten.length ≤ (keysOf fs).length := nodup_subset_length hnodup hkeys
      have h2 : (keysOf fs).length ≤ L.flatten.length := nodup_subset_length hknd hcover
      have h3 : (keysOf fs).length = fs.length := List.length_map fs Prod.fst
      omega
    refine ⟨⟨L.flatten, L⟩, by rw [hBP, if_pos hlen], ?_⟩
    intro i hi
    obtain ⟨hsort, hnd, hchar⟩ := layersGood_get fs L [] hgood i hi
    refine ⟨hsort, ?_⟩
    intro n
    rw [hchar n]
    simp only [List.nil_append]
    constructor
    · rintro ⟨hk, hni, hdeps⟩
      refine ⟨hk, (cnt_eq_zero_iff fs _ n).mpr hdeps, ?_⟩
      cases i with
      | zero => exact Or.inl rfl
      | succ i2 =>
          right
          by_contra hc
          push_neg at hc
          have hiL : i2 + 1 < L.length := hi
          have hz : cnt fs ((L.take (i2 + 1 - 1)).flatten) n = 0 := by omega
          have hdeps2 : ∀ d ∈ depsOf fs n, d ∈ (L.take i2).flatten := by
            have := (cnt_eq_zero_iff fs _ n).mp hz
            simpa using this
          have hmem := layersGood_promote fs L [] hgood i2 (by omega) n hk
            (List.not_mem_nil n) (by simpa using hdeps2)
          exact hni hmem
    · rintro ⟨hk, hz, hprev⟩
      refine ⟨hk, ?_, (cnt_eq_zero_iff fs _ n).mp hz⟩
      intro hmem
      rw [mem_flatten_take] at hmem
      obtain ⟨j, hj, hji, hnj⟩ := hmem
      obtain ⟨_, _, hcharj⟩ := layersGood_get fs L [] hgood j hj
      have hdepsj : ∀ d ∈ depsOf fs n, d ∈ (L.take j).flatten := by
        have := ((hcharj n).mp hnj).2.2
        simpa using this
      cases i with
      | zero => omega
      | succ i2 =>
          rcases hprev with h | h
          · exact absurd h (Nat.succ_ne_zero i2)
          · have hzj : cnt fs ((L.take j).flatten) n = 0 :=
              (cnt_eq_zero_iff fs _ n).mpr hdepsj
            have hz2 : cnt fs ((L.take (i2 + 1 - 1)).flatten) n = 0 :=
              cnt_eq_zero_of_subset fs
                (fun x hx => flatten_take_mono L (by omega) hx) hzj
            omega
  · rintro ⟨l, hcyc⟩
    rw [hBP]
    rw [if_neg ?_]
    intro hlen
    have hcover := coverage_of_length fs hknd L hnodup hkeys hlen
    exact noCycle_of_layers fs hclosed L hgood hcover l hcyc

theorem c7_buildPlan_layers_witness :
    (BuildPlan [("a", []), ("b", ["a"]), ("c", ["a"]), ("d", ["b", "c"])] =
      .ok ⟨["a", "b", "c", "d"], [["a"], ["b", "c"], ["d"]]⟩) ∧
    BuildPlan [("x", ["y"]), ("y", ["x"])] =
      .error "dependency graph contains a cycle" := by
  have hknd : (keysOf [("x", ["y"]), ("y", ["x"])]).Nodup := by decide
  have hclosed : ∀ p ∈ [("x", ["y"]), ("y", ["x"])], ∀ d ∈ p.2,
      d ∈ keysOf [("x", ["y"]), ("y", ["x"])] := by decide
  refine ⟨(c7_buildPlan_layers [("x", ["y"]), ("y", ["x"])] hknd hclosed).2.2, ?_⟩
  refine (c7_buildPlan_layers [("x", ["y"]), ("y", ["x"])] hknd hclosed).2.1 ⟨["x", "y"], ?_, ?_⟩
  · exact List.Chain.cons (by decide) (List.Chain.nil)
  · decide

/-- C10: whenever `BuildPlan` accepts a closure, the returned order is
the concatenation of the returned layers in index order, and it is a
permutation of the closure's keys. -/
theorem c10_order_flatten_perm (fs : Closure) (hknd : (keysOf fs).Nodup)
    (plan : Plan) (hok : BuildPlan fs = .ok plan) :
    plan.order = plan.layers.flatten ∧ plan.order.Perm (keysOf fs) := by
  have hclosed : ∀ p ∈ fs, ∀ d ∈ p.2, d ∈ keysOf fs := by
    by_contra hc
    push_neg at hc
    obtain ⟨p, hp, d, hd, hdk⟩ := hc
    have hne : fs.find? (fun p => p.2.any fun d => !(keysOf fs).contains d) ≠ none := by
      intro hnone
      rw [List.find?_eq_none] at hnone
      refine hnone p hp ?_
      rw [List.any_eq_true]
      refine ⟨d, hd, ?_⟩
      simpa [List.elem_iff] using hdk
    obtain ⟨q, hfind⟩ := Option.ne_none_iff_exists'.mp hne
    rw [BuildPlan] at hok
    rw [hfind] at hok
    exact Except.noConfusion hok
  obtain ⟨L, hBP, hgood, hready, hnodup, hkeys⟩ := buildPlan_run fs hknd hclosed
  rw [hBP] at hok
  by_cases hlen : L.flatten.length = fs.length
  · rw [if_pos hlen] at hok
    have hplan : plan = ⟨L.flatten, L⟩ := by
      cases hok
      rfl
    subst hplan
    refine ⟨rfl, ?_⟩
    have hcover := coverage_of_length fs hknd L hnodup hkeys hlen
    refine List.perm_of_nodup_nodup_toFinset_eq hnodup hknd ?_
    apply Finset.eq_of_subset_of_card_le
    · intro a ha
      rw [List.mem_toFinset] at ha ⊢
      exact hkeys a ha
    · rw [List.toFinset_card_of_nodup hknd, List.toFinset_card_of_nodup hnodup, hlen]
      have : (keysOf fs).length = fs.length := List.length_map fs Prod.fst
      omega
  · rw [if_neg hlen] at hok
    exact Except.noConfusion hok

theorem c10_order_flatten_perm_witness :
    (⟨["a", "b", "c", "d"], [["a"], ["b", "c"], ["d"]]⟩ : Plan).order =
      [["a"], ["b", "c"], ["d"]].flatten ∧
    (⟨["a", "b", "c", "d"], [["a"], ["b", "c"], ["d"]]⟩ : Plan).order.Perm
      (keysOf [("a", []), ("b", ["a"]), ("c", ["a"]), ("d", ["b", "c"])]) := by
  exact c10_order_flatten_perm [("a", []), ("b", ["a"]), ("c", ["a"]), ("d", ["b", "c"])]
    (by decide) ⟨["a", "b", "c", "d"], [["a"], ["b", "c"], ["d"]]⟩ rfl

theorem candidateDeps_iff (preClosure : String → List String)
    (targets : List String) (n : String) :
    candidateDeps preClosure targets n = true ↔ specCandidate preClosure targets n := by
  unfold candidateDeps specCandidate
  rw [List.any_eq_true]
  constructor
  · rintro ⟨name, hname, hany⟩
    rw [List.any_eq_true] at hany
    obtain ⟨d, hd, hdd⟩ := hany
    rw [Bool.and_eq_true, beq_iff_eq, Bool.not_eq_true', beq_eq_false_iff_ne] at hdd
    exact ⟨name, hname, hdd.1 ▸ hd, hdd.1 ▸ hdd.2⟩
  · rintro ⟨r, hr, hmem, hne⟩
    refine ⟨r, hr, ?_⟩
    rw [List.any_eq_true]
    refine ⟨n, hmem, ?_⟩
    rw [Bool.and_eq_true, beq_iff_eq, Bool.not_eq_true', beq_eq_false_iff_ne]
    exact ⟨rfl, hne⟩

theorem nonCandidateRoots_eq (preClosure : String → List String)
    (targets remaining : List String) :
    nonCandidateRoots preClosure targets remaining =
      remaining.filter (fun m => decide (¬ specCandidate preClosure targets m)) := by
  unfold nonCandidateRoots
  apply List.filter_congr
  intro m _
  by_cases hc : specCandidate preClosure targets m
  · rw [(candidateDeps_iff preClosure targets m).mpr hc]
    simp [hc]
  · have hf : candidateDeps preClosure targets m = false :=
      Bool.eq_false_iff.mpr (fun h => hc ((candidateDeps_iff preClosure targets m).mp h))
    rw [hf]
    simp [hc]

theorem requiredByNonCandidates_iff (preClosure : String → List String)
    (curClosure : List String → List String)
    (targets remaining : List String) (hcur0 : curClosure [] = [])
    (n : String) (hn : n ∈ remaining) :
    requiredByNonCandidates preClosure curClosure targets remaining n = true ↔
      n ∈ specRequired preClosure curClosure targets remaining := by
  unfold requiredByNonCandidates specRequired
  rw [← nonCandidateRoots_eq]
  by_cases hlen : (nonCandidateRoots preClosure targets remaining).length > 0
  · rw [if_pos hlen, Bool.and_eq_true, List.elem_iff, List.elem_iff]
    constructor
    · rintro ⟨h1, _⟩
      exact h1
    · intro h1
      exact ⟨h1, hn⟩
  · rw [if_neg hlen]
    have hnil : nonCandidateRoots preClosure targets remaining = [] :=
      List.length_eq_zero.mp (by omega)
    rw [hnil, hcur0]
    simp

/-- C3: the autoremove name list computed by
`UninstallWithAutoremove` contains exactly the remaining formulae that
are candidates (members of a requested root's pre-removal closure other
than the root), are not required by the closure of the non-candidate
remaining formulae over the current metadata, and are not requested
roots; and the list is lexicographically sorted and duplicate-free.
The list is passed to `uninstallFormulaBatch`, whose records preserve
its order and are returned as the summary's `AutoRemove`. -/
theorem c3_autoremove_set (preClosure : String → List String)
    (curClosure : List String → List String)
    (formulaTargets remaining : List String)
    (hrem : remaining.Nodup) (hcur0 : curClosure [] = []) :
    (∀ n, n ∈ autoRemoveNames preClosure curClosure formulaTargets remaining ↔
      (specCandidate preClosure formulaTargets n ∧ n ∈ remaining ∧
        n ∉ specRequired preClosure curClosure formulaTargets remaining ∧
        n ∉ formulaTargets)) ∧
    sortedStr (autoRemoveNames preClosure curClosure formulaTargets remaining) ∧
    (autoRemoveNames preClosure curClosure formulaTargets remaining).Nodup := by
  refine ⟨?_, sortStrings_sorted _, sortStrings_nodup (List.Nodup.filter _ hrem)⟩
  intro n
  unfold autoRemoveNames
  rw [mem_sortStrings, List.mem_filter]
  constructor
  · rintro ⟨hnr, hbool⟩
    simp only [Bool.and_eq_true, Bool.not_eq_true'] at hbool
    obtain ⟨⟨hroot, hcand⟩, hreq⟩ := hbool
    refine ⟨(candidateDeps_iff _ _ _).mp hcand, hnr, ?_, ?_⟩
    · intro hmem
      have hth := (requiredByNonCandidates_iff preClosure curClosure formulaTargets
        remaining hcur0 n hnr).mpr hmem
      rw [hth] at hreq
      exact absurd hreq (by simp)
    · intro hmem
      have hcon : formulaTargets.contains n = true := List.elem_iff.mpr hmem
      rw [hcon] at hroot
      exact absurd hroot (by simp)
  · rintro ⟨hcand, hnr, hreq, hroot⟩
    refine ⟨hnr, ?_⟩
    simp only [Bool.and_eq_true, Bool.not_eq_true']
    refine ⟨⟨?_, (candidateDeps_iff _ _ _).mpr hcand⟩, ?_⟩
    · rw [Bool.eq_false_iff]
      intro h
      exact hroot (List.elem_iff.mp h)
    · rw [Bool.eq_false_iff]
      intro h
      exact hreq ((requiredByNonCandidates_iff preClosure curClosure formulaTargets
        remaining hcur0 n hnr).mp h)

theorem c3_autoremove_set_witness :
    (∀ n, n ∈ autoRemoveNames
        (fun r => if r = "ffmpeg" then ["ffmpeg", "lame", "opus"] else [r])
        (fun roots => roots) ["ffmpeg"] ["lame", "opus", "x265"] ↔
      (specCandidate (fun r => if r = "ffmpeg" then ["ffmpeg", "lame", "opus"] else [r])
          ["ffmpeg"] n ∧ n ∈ ["lame", "opus", "x265"] ∧
        n ∉ specRequired (fun r => if r = "ffmpeg" then ["ffmpeg", "lame", "opus"] else [r])
          (fun roots => roots) ["ffmpeg"] ["lame", "opus", "x265"] ∧
        n ∉ ["ffmpeg"])) ∧
    sortedStr (autoRemoveNames
      (fun r => if r = "ffmpeg" then ["ffmpeg", "lame", "opus"] else [r])
      (fun roots => roots) ["ffmpeg"] ["lame", "opus", "x265"]) ∧
    (autoRemoveNames (fun r => if r = "ffmpeg" then ["ffmpeg", "lame", "opus"] else [r])
      (fun roots => roots) ["ffmpeg"] ["lame", "opus", "x265"]).Nodup :=
  c3_autoremove_set (fun r => if r = "ffmpeg" then ["ffmpeg", "lame", "opus"] else [r])
    (fun roots => roots) ["ffmpeg"] ["lame", "opus", "x265"] (by decide) rfl

theorem takeWhile_all_append (p : Char → Bool) (l1 l2 : List Char)
    (h : ∀ c ∈ l1, p c = true) :
    (l1 ++ l2).takeWhile p = l1 ++ l2.takeWhile p := by
  induction l1 with
  | nil => simp
  | cons c cs ih =>
      have hc : p c = true := h c (List.mem_cons_self c cs)
      simp only [List.cons_append, List.takeWhile_cons, hc, if_pos]
      rw [ih (fun x hx => h x (List.mem_cons_of_mem c hx))]

theorem dropWhile_all_append (p : Char → Bool) (l1 l2 : List Char)
    (h : ∀ c ∈ l1, p c = true) :
    (l1 ++ l2).dropWhile p = l2.dropWhile p := by
  induction l1 with
  | nil => simp
  | cons c cs ih =>
      have hc : p c = true := h c (List.mem_cons_self c cs)
      simp only [List.cons_append, List.dropWhile_cons, hc, if_pos]
      exact ih (fun x hx => h x (List.mem_cons_of_mem c hx))

theorem length_takeWhile_add_dropWhile (p : Char → Bool) (l : List Char) :
    (l.takeWhile p).length + (l.dropWhile p).length = l.length := by
  conv_rhs => rw [← List.takeWhile_append_dropWhile p l]
  rw [List.length_append]

theorem tryMatch_none_of_head (c : Char) (cs : List Char)
    (hc : isNameChar c = false) : tryMatch (c :: cs) = none := by
  have hempty : ((c :: cs).takeWhile isNameChar).isEmpty = true := by
    simp [List.takeWhile_cons, hc]
  simp only [tryMatch, hempty, if_pos]

theorem tryMatch_render (nm v : String) (rest : List Char)
    (hnm : nm.data ≠ []) (hnmc : ∀ c ∈ nm.data, isNameChar c = true)
    (hv : ∀ c ∈ v.data, ¬ c = '"') :
    tryMatch (nm.data ++ ('=' :: '"' :: (v.data ++ ('"' :: rest)))) = some ((nm, v), rest) := by
  have heqq : isNameChar '=' = false := by decide
  have htake : List.takeWhile isNameChar
      (nm.data ++ ('=' :: '"' :: (v.data ++ ('"' :: rest)))) = nm.data := by
    rw [takeWhile_all_append isNameChar nm.data ('=' :: '"' :: (v.data ++ ('"' :: rest))) hnmc]
    simp [List.takeWhile_cons, heqq]
  have hdrop : List.dropWhile isNameChar
      (nm.data ++ ('=' :: '"' :: (v.data ++ ('"' :: rest)))) =
      '=' :: '"' :: (v.data ++ ('"' :: rest)) := by
    rw [dropWhile_all_append isNameChar nm.data ('=' :: '"' :: (v.data ++ ('"' :: rest))) hnmc]
    simp [List.dropWhile_cons, heqq]
  have hvp : ∀ c ∈ v.data, (!(c = '"')) = true := by
    intro c hc
    simpa using hv c hc
  have htakev : List.takeWhile (fun c => !(c = '"')) (v.data ++ ('"' :: rest)) = v.data := by
    rw [takeWhile_all_append (fun c => !(c = '"')) v.data ('"' :: rest) hvp]
    simp [List.takeWhile_cons]
  have hdropv : List.dropWhile (fun c => !(c = '"')) (v.data ++ ('"' :: rest)) =
      '"' :: rest := by
    rw [dropWhile_all_append (fun c => !(c = '"')) v.data ('"' :: rest) hvp]
    simp [List.dropWhile_cons]
  have hne : nm.data.isEmpty = false := by
    cases hd : nm.data with
    | nil => exact absurd hd hnm
    | cons a l => rfl
  simp only [tryMatch, htake, hdrop, hne, Bool.false_eq_true, if_false]
  show tryClose nm.data ((v.data ++ ('\"' :: rest)).takeWhile (fun c => !(c = '\"')))
      ((v.data ++ ('\"' :: rest)).dropWhile (fun c => !(c = '\"'))) = some ((nm, v), rest)
  rw [htakev, hdropv]
  rfl

theorem tryMatch_some_length {cs : List Char} {p : String × String} {rest : List Char}
    (h : tryMatch cs = some (p, rest)) : rest.length < cs.length := by
  simp only [tryMatch] at h
  by_cases hne : (cs.takeWhile isNameChar).isEmpty = true
  · rw [if_pos hne] at h
    exact absurd h (by simp)
  · rw [if_neg hne] at h
    have hlen1 : 1 ≤ (cs.takeWhile isNameChar).length := by
      cases hd : cs.takeWhile isNameChar with
      | nil => rw [hd] at hne; exact absurd rfl hne
      | cons a l => simp [hd]
    have hsum1 := length_takeWhile_add_dropWhile isNameChar cs
    rcases hdw : cs.dropWhile isNameChar with _ | ⟨c1, rest1⟩
    · rw [hdw] at h
      simp [tryAfterName] at h
    · rw [hdw] at h
      rcases hr1 : rest1 with _ | ⟨c2, rest2⟩
      · rw [hr1] at h
        simp [tryAfterName] at h
      · rw [hr1] at h
        simp only [tryAfterName] at h
        by_cases h12 : c1 = '=' ∧ c2 = '"'
        · rw [if_pos h12] at h
          have hsum2 := length_takeWhile_add_dropWhile (fun c => !(c = '"')) rest2
          rcases hdr : rest2.dropWhile (fun c => !(c = '"')) with _ | ⟨c3, rest4⟩
          · rw [hdr] at h
            simp [tryClose] at h
          · rw [hdr] at h
            simp only [tryClose] at h
            by_cases h3 : c3 = '"'
            · rw [if_pos h3] at h
              have hr : rest = rest4 := by
                have hinj := h
                simp at hinj
                exact hinj.2.symm
              subst hr
              rw [hdw, hr1] at hsum1
              rw [hdr] at hsum2
              simp only [List.length_cons] at hsum1 hsum2
              omega
            · rw [if_neg h3] at h
              exact absurd h (by simp)
        · rw [if_neg h12] at h
          exact absurd h (by simp)

theorem scanGo_fuel_mono :
    ∀ (fuel1 : Nat) (fuel2 : Nat) (l : List Char), l.length ≤ fuel1 → l.length ≤ fuel2 →
      scanGo fuel1 l = scanGo fuel2 l := by
  intro fuel1
  induction fuel1 with
  | zero =>
      intro fuel2 l h1 _
      have : l = [] := List.length_eq_zero.mp (by omega)
      subst this
      cases fuel2 <;> rfl
  | succ fuel1 ih =>
      intro fuel2 l h1 h2
      cases l with
      | nil => cases fuel2 <;> rfl
      | cons c cs =>
          cases fuel2 with
          | zero => simp at h2
          | succ fuel2 =>
              simp only [scanGo]
              cases hm : tryMatch (c :: cs) with
              | none =>
                  exact ih fuel2 cs (by simp at h1; omega) (by simp at h2; omega)
              | some pr =>
                  obtain ⟨p, rest⟩ := pr
                  have hlt := tryMatch_some_length hm
                  simp only [List.length_cons] at h1 h2 hlt
                  show p :: scanGo fuel1 rest = p :: scanGo fuel2 rest
                  rw [ih fuel2 rest (by omega) (by omega)]

theorem scanGo_junk_nil :
    ∀ (fuel : Nat) (l : List Char), (∀ c ∈ l, isNameChar c = false) →
      scanGo fuel l = [] := by
  intro fuel
  induction fuel with
  | zero => intro l _; rfl
  | succ fuel ih =>
      intro l h
      cases l with
      | nil => rfl
      | cons c cs =>
          simp only [scanGo, tryMatch_none_of_head c cs (h c (List.mem_cons_self c cs))]
          exact ih cs (fun x hx => h x (List.mem_cons_of_mem c hx))

theorem scanGo_append_junk :
    ∀ (junk : List Char) (fuel : Nat) (l : List Char),
      (∀ c ∈ junk, isNameChar c = false) →
      scanGo (junk.length + fuel) (junk ++ l) = scanGo fuel l := by
  intro junk
  induction junk with
  | nil =>
      intro fuel l _
      rw [List.nil_append, List.length_nil, Nat.zero_add]
  | cons c cs ih =>
      intro fuel l h
      have hfuel : (c :: cs).length + fuel = (cs.length + fuel) + 1 := by
        simp
        omega
      rw [hfuel, List.cons_append]
      simp only [scanGo,
        tryMatch_none_of_head c (cs ++ l) (h c (List.mem_cons_self c cs))]
      exact ih fuel l (fun x hx => h x (List.mem_cons_of_mem c hx))

theorem scanPairs_render :
    ∀ (items : List (List Char × String × String)) (trailing : List Char),
      RenderOK items trailing →
      scanPairs (renderPairs items trailing) = items.map (fun it => (it.2.1, it.2.2)) := by
  intro items
  induction items with
  | nil =>
      intro trailing hok
      exact scanGo_junk_nil _ trailing (fun c hc => (hok.2 c hc).1)
  | cons it rest ih =>
      intro trailing hok
      obtain ⟨junk, nm, v⟩ := it
      obtain ⟨hall, htrail⟩ := hok
      have hhead := hall (junk, nm, v) (List.mem_cons_self _ _)
      obtain ⟨hjunk, hnm, hnmc, hvq⟩ := hhead
      have hrestok : RenderOK rest trailing :=
        ⟨fun i hi => hall i (List.mem_cons_of_mem _ hi), htrail⟩
      have hjunk2 : ∀ c ∈ junk, isNameChar c = false := fun c hc => (hjunk c hc).1
      set X : List Char :=
        nm.data ++ ('=' :: '"' :: (v.data ++ ('"' :: renderPairs rest trailing))) with hX
      have hrender : renderPairs ((junk, nm, v) :: rest) trailing = junk ++ X := rfl
      rw [hrender]
      have hlen : (junk ++ X).length = junk.length + X.length := List.length_append _ _
      rw [scanPairs, hlen, scanGo_append_junk junk X.length X hjunk2]
      cases hd : nm.data with
      | nil => exact absurd hd hnm
      | cons a l =>
          have hXc : X = a ::
              (l ++ ('=' :: '"' :: (v.data ++ ('"' :: renderPairs rest trailing)))) := by
            rw [hX, hd]
            rfl
          rw [hXc, List.length_cons]
          have hmatch : tryMatch (a ::
              (l ++ ('=' :: '"' :: (v.data ++ ('"' :: renderPairs rest trailing))))) =
              some ((nm, v), renderPairs rest trailing) := by
            have hh := tryMatch_render nm v (renderPairs rest trailing) hnm hnmc hvq
            rw [hd] at hh
            simpa using hh
          simp only [scanGo, hmatch]
          have hfuel2 : (renderPairs rest trailing).length ≤
              (l ++ ('=' :: '"' :: (v.data ++ ('"' :: renderPairs rest trailing)))).length := by
            simp [List.length_append]
            omega
          rw [scanGo_fuel_mono _ (renderPairs rest trailing).length _ hfuel2 (le_refl _)]
          rw [← scanPairs]
          rw [ih trailing hrestok]
          rfl

theorem valuesOf_foldl_not_mem (pairs : List (String × String)) :
    ∀ (m : String → String) (k : String),
      (∀ kv ∈ pairs, toLowerStr kv.1 ≠ k) →
      (pairs.foldl (fun m kv => fun q => if q = toLowerStr kv.1 then kv.2 else m q) m) k
        = m k := by
  induction pairs with
  | nil => intro m k _; rfl
  | cons kv rest ih =>
      intro m k h
      rw [List.foldl_cons, ih _ k (fun x hx => h x (List.mem_cons_of_mem kv hx))]
      have : ¬ k = toLowerStr kv.1 := fun he => h kv (List.mem_cons_self kv rest) he.symm
      simp [this]

theorem valuesOf_not_mem (pairs : List (String × String)) (k : String)
    (h : ∀ kv ∈ pairs, toLowerStr kv.1 ≠ k) : valuesOf pairs k = "" :=
  valuesOf_foldl_not_mem pairs _ k h

theorem valuesOf_append_last (pairs : List (String × String)) (N v k : String)
    (h : toLowerStr N = k) : valuesOf (pairs ++ [(N, v)]) k = v := by
  unfold valuesOf
  rw [List.foldl_append]
  simp [h]

theorem trimSpace_ne_empty_of_not_space {s : String} {c0 : Char}
    (hmem : c0 ∈ s.data) (hc0 : goIsSpace c0 = false) : ¬ trimSpace s = "" := by
  intro h
  have hdata : ((s.data.dropWhile goIsSpace).reverse.dropWhile goIsSpace).reverse = [] := by
    have := congrArg String.data h
    simpa [trimSpace] using this
  have h2 : (s.data.dropWhile goIsSpace).reverse.dropWhile goIsSpace = [] := by
    have := congrArg List.reverse hdata
    simpa using this
  have hall : ∀ x ∈ (s.data.dropWhile goIsSpace).reverse, goIsSpace x = true :=
    List.dropWhile_eq_nil_iff.mp h2
  have hall2 : ∀ x ∈ s.data.dropWhile goIsSpace, goIsSpace x = true := by
    intro x hx
    exact hall x (List.mem_reverse.mpr hx)
  have hmem2 : c0 ∈ s.data.takeWhile goIsSpace ++ s.data.dropWhile goIsSpace := by
    rw [List.takeWhile_append_dropWhile]
    exact hmem
  rcases List.mem_append.mp hmem2 with h1 | h1
  · rw [List.mem_takeWhile_imp h1] at hc0
    exact Bool.noConfusion hc0
  · rw [hall2 c0 h1] at hc0
    exact Bool.noConfusion hc0

theorem extractTarGzRun_writes_within (dst : String) :
    ∀ (entries : List TarEntry) (idx : Nat) (p : Nat × String),
      p ∈ (extractTarGzRun dst idx entries).1 →
      ∃ j, ∃ h : j < entries.length, p.1 = idx + j ∧
        entryWithinDst dst (entries.get ⟨j, h⟩).name = true := by
  intro entries
  induction entries with
  | nil =>
      intro idx p hp
      simp [extractTarGzRun] at hp
  | cons e rest ih =>
      intro idx p hp
      by_cases hw : entryWithinDst dst e.name = true
      · simp only [extractTarGzRun, if_pos hw, List.mem_append] at hp
        rcases hp with hp | hp
        · obtain ⟨w, _, rfl⟩ := List.mem_map.mp hp
          exact ⟨0, Nat.succ_pos _, by omega, hw⟩
        · obtain ⟨j, h, hp1, hwj⟩ := ih (idx + 1) p hp
          exact ⟨j + 1, Nat.succ_lt_succ h, by omega, hwj⟩
      · simp only [extractTarGzRun, if_neg hw] at hp
        simp at hp

theorem extractTarGzRun_error_of_violation (dst : String) :
    ∀ (entries : List TarEntry) (idx : Nat),
      (∃ j, ∃ h : j < entries.length,
        entryWithinDst dst (entries.get ⟨j, h⟩).name = false) →
      ((extractTarGzRun dst idx entries).2).isSome = true := by
  intro entries
  induction entries with
  | nil =>
      intro idx ⟨j, h, _⟩
      exact absurd h (Nat.not_lt_zero j)
  | cons e rest ih =>
      intro idx ⟨j, h, hviol⟩
      by_cases hw : entryWithinDst dst e.name = true
      · simp only [extractTarGzRun, if_pos hw]
        match j with
        | 0 => exact absurd hviol (by simp [List.get, hw])
        | j + 1 => exact ih (idx + 1) ⟨j, Nat.lt_of_succ_lt_succ h, hviol⟩
      · simp [extractTarGzRun, if_neg hw]

theorem extractZipRun_writes_within (dst : String) :
    ∀ (entries : List ZipEntry) (idx : Nat) (p : Nat × String),
      p ∈ (extractZipRun dst idx entries).1 →
      ∃ j, ∃ h : j < entries.length, p.1 = idx + j ∧
        entryWithinDst dst (entries.get ⟨j, h⟩).name = true := by
  intro entries
  induction entries with
  | nil =>
      intro idx p hp
      simp [extractZipRun] at hp
  | cons e rest ih =>
      intro idx p hp
      by_cases hw : entryWithinDst dst e.name = true
      · simp only [extractZipRun, if_pos hw, List.mem_append] at hp
        rcases hp with hp | hp
        · obtain ⟨w, _, rfl⟩ := List.mem_map.mp hp
          exact ⟨0, Nat.succ_pos _, by omega, hw⟩
        · obtain ⟨j, h, hp1, hwj⟩ := ih (idx + 1) p hp
          exact ⟨j + 1, Nat.succ_lt_succ h, by omega, hwj⟩
      · simp only [extractZipRun, if_neg hw] at hp
        simp at hp

theorem extractZipRun_error_of_violation (dst : String) :
    ∀ (entries : List ZipEntry) (idx : Nat),
      (∃ j, ∃ h : j < entries.length,
        entryWithinDst dst (entries.get ⟨j, h⟩).name = false) →
      ((extractZipRun dst idx entries).2).isSome = true := by
  intro entries
  induction entries with
  | nil =>
      intro idx ⟨j, h, _⟩
      exact absurd h (Nat.not_lt_zero j)
  | cons e rest ih =>
      intro idx ⟨j, h, hviol⟩
      by_cases hw : entryWithinDst dst e.name = true
      · simp only [extractZipRun, if_pos hw]
        match j with
        | 0 => exact absurd hviol (by simp [List.get, hw])
        | j + 1 => exact ih (idx + 1) ⟨j, Nat.lt_of_succ_lt_succ h, hviol⟩
      · simp [extractZipRun, if_neg hw]

/-- C2: both extractors write an entry only when the cleaned join of
root and entry name equals the cleaned root or extends it past a
separator (`entryWithinDst`), and an entry violating that containment
check makes extraction fail with an error while the violating entry
itself is never written. -/
theorem c2_extraction_containment (dst : String) :
    (∀ (entries : List TarEntry) (p : Nat × String),
      p ∈ (extractTarGz dst entries).1 →
      ∃ h : p.1 < entries.length,
        entryWithinDst dst (entries.get ⟨p.1, h⟩).name = true) ∧
    (∀ (entries : List TarEntry) (j : Nat) (h : j < entries.length),
      entryWithinDst dst (entries.get ⟨j, h⟩).name = false →
      ((extractTarGz dst entries).2).isSome = true ∧
        ∀ w, (j, w) ∉ (extractTarGz dst entries).1) ∧
    (∀ (entries : List ZipEntry) (p : Nat × String),
      p ∈ (extractZip dst entries).1 →
      ∃ h : p.1 < entries.length,
        entryWithinDst dst (entries.get ⟨p.1, h⟩).name = true) ∧
    (∀ (entries : List ZipEntry) (j : Nat) (h : j < entries.length),
      entryWithinDst dst (entries.get ⟨j, h⟩).name = false →
      ((extractZip dst entries).2).isSome = true ∧
        ∀ w, (j, w) ∉ (extractZip dst entries).1) := by
  refine ⟨?_, ?_, ?_, ?_⟩
  · intro entries p hp
    obtain ⟨j, h, hp1, hwj⟩ := extractTarGzRun_writes_within dst entries 0 p hp
    have : p.1 = j := by omega
    subst this
    exact ⟨h, hwj⟩
  · intro entries j h hviol
    refine ⟨extractTarGzRun_error_of_violation dst entries 0 ⟨j, h, hviol⟩, ?_⟩
    intro w hw
    obtain ⟨j2, h2, hp1, hwj⟩ := extractTarGzRun_writes_within dst entries 0 (j, w) hw
    have : j2 = j := by simpa using hp1.symm
    subst this
    rw [hviol] at hwj
    exact Bool.false_ne_true hwj
  · intro entries p hp
    obtain ⟨j, h, hp1, hwj⟩ := extractZipRun_writes_within dst entries 0 p hp
    have : p.1 = j := by omega
    subst this
    exact ⟨h, hwj⟩
  · intro entries j h hviol
    refine ⟨extractZipRun_error_of_violation dst entries 0 ⟨j, h, hviol⟩, ?_⟩
    intro w hw
    obtain ⟨j2, h2, hp1, hwj⟩ := extractZipRun_writes_within dst entries 0 (j, w) hw
    have : j2 = j := by simpa using hp1.symm
    subst this
    rw [hviol] at hwj
    exact Bool.false_ne_true hwj

theorem c2_extraction_containment_witness :
    ((extractTarGz "/root"
        [⟨"ok.txt", TarType.reg, ""⟩, ⟨"../evil", TarType.reg, ""⟩]).2).isSome = true ∧
    (∀ w, (1, w) ∉ (extractTarGz "/root"
        [⟨"ok.txt", TarType.reg, ""⟩, ⟨"../evil", TarType.reg, ""⟩]).1) ∧
    ((extractZip "/app" [⟨"../../escape", false⟩]).2).isSome = true := by
  refine ⟨?_, ?_, ?_⟩
  · exact ((c2_extraction_containment "/root").2.1
      [⟨"ok.txt", TarType.reg, ""⟩, ⟨"../evil", TarType.reg, ""⟩] 1 (by decide)
      (by decide)).1
  · exact ((c2_extraction_containment "/root").2.1
      [⟨"ok.txt", TarType.reg, ""⟩, ⟨"../evil", TarType.reg, ""⟩] 1 (by decide)
      (by decide)).2
  · exact (((c2_extraction_containment "/app").2.2.2)
      [⟨"../../escape", false⟩] 0 (by decide) (by decide)).1

/-- C5: SeaHash test vectors of `seahash64`, and the little-endian hex
encoding produced by `hash`. -/
theorem c5_seahash_vectors :
    seahash64 (utf8Bytes "") = 14492805990617963705 ∧
    seahash64 (utf8Bytes "to be or not to be") = 1988685042348123509 ∧
    seahash64 (utf8Bytes "love is a wonderful terrible thing") = 4784284276849692846 ∧
    seahash64 [1, 2, 3, 4] = 7946236997574049990 ∧
    hash "to be or not to be" = "75e54a6f823a991b" ∧
    (hash "to be or not to be").length = 16 := by
  refine ⟨by decide, by decide, by decide, by decide, by decide, by decide⟩

theorem toLowerChar_of_space {c : Char} (h : goIsSpace c = true) : toLowerChar c = c := by
  have hmem : c.toNat ∈ [9, 10, 11, 12, 13, 32, 0x85, 0xA0, 0x1680,
      0x2000, 0x2001, 0x2002, 0x2003, 0x2004, 0x2005, 0x2006, 0x2007,
      0x2008, 0x2009, 0x200A, 0x2028, 0x2029, 0x202F, 0x205F, 0x3000] := by
    simpa [goIsSpace] using h
  have hrange : ¬ (65 ≤ c.toNat ∧ c.toNat ≤ 90) := by
    simp only [List.mem_cons, List.not_mem_nil, or_false] at hmem
    rcases hmem with h1 | h1 | h1 | h1 | h1 | h1 | h1 | h1 | h1 | h1 | h1 | h1 | h1 |
      h1 | h1 | h1 | h1 | h1 | h1 | h1 | h1 | h1 | h1 | h1 | h1 <;> omega
  unfold toLowerChar
  rw [if_neg hrange]

theorem bearer_parse_scheme :
    ∀ (pre params : String), toLowerStr pre = "bearer " →
      parseBearerChallenge ⟨pre.data ++ params.data⟩ =
        (if trimSpace (valuesOf (scanPairs params.data) "realm") = ""
         then .error "auth challenge missing realm"
         else .ok (valuesOf (scanPairs params.data) "realm",
                   valuesOf (scanPairs params.data) "service",
                   valuesOf (scanPairs params.data) "scope")) := by
  intro pre params hpre
  have hdata : pre.data.map toLowerChar = "bearer ".data := congrArg String.data hpre
  have hlen : pre.data.length = 7 := by
    have h1 := congrArg List.length hdata
    rw [List.length_map] at h1
    exact h1.trans rfl
  have hpref : hasPrefix (toLowerStr ⟨pre.data ++ params.data⟩) "bearer " = true := by
    show ("bearer ".data).isPrefixOf ((pre.data ++ params.data).map toLowerChar) = true
    rw [List.map_append, hdata]
    exact List.isPrefixOf_iff_prefix.mpr (List.prefix_append _ _)
  have hdrop : (⟨pre.data ++ params.data⟩ : String).data.drop 7 = params.data := by
    show (pre.data ++ params.data).drop 7 = params.data
    rw [← hlen]
    exact List.drop_left _ _
  have htrim : ¬ trimSpace ⟨pre.data ++ params.data⟩ = "" := by
    rcases hd : pre.data with _ | ⟨c0, tl⟩
    · rw [hd] at hlen
      exact absurd hlen (by decide)
    · have hdata2 := hdata
      rw [hd, List.map_cons,
        show "bearer ".data = 'b' :: ['e', 'a', 'r', 'e', 'r', ' '] from rfl] at hdata2
      injection hdata2 with hc0 htl
      have hc0s : goIsSpace c0 = false := by
        cases hsp : goIsSpace c0 with
        | false => rfl
        | true =>
            have hcc := toLowerChar_of_space hsp
            have hcb : c0 = 'b' := hcc.symm.trans hc0
            rw [hcb] at hsp
            exact absurd hsp (by decide)
      exact trimSpace_ne_empty_of_not_space
        (List.mem_append_left _ (List.mem_cons_self c0 tl)) hc0s
  unfold parseBearerChallenge
  rw [if_neg htrim, hpref]
  rw [if_neg (show ¬ ((!true) = true) by decide)]
  rw [hdrop]

theorem mem_setQueryParam {x : String × String} {q : List (String × String)}
    {k v : String} :
    x ∈ setQueryParam q k v ↔ ((x ∈ q ∧ x.1 ≠ k) ∨ x = (k, v)) := by
  unfold setQueryParam
  simp [List.mem_filter]

theorem tokenQuery_spec :
    ∀ (base : List (String × String)) (service scope : String),
      (∀ kv ∈ base, kv.1 ≠ "service" ∧ kv.1 ≠ "scope") →
      ((service = "" → ∀ v, ("service", v) ∉ tokenQuery base service scope) ∧
       (scope = "" → ∀ v, ("scope", v) ∉ tokenQuery base service scope) ∧
       (service ≠ "" → ("service", service) ∈ tokenQuery base service scope) ∧
       (scope ≠ "" → ("scope", scope) ∈ tokenQuery base service scope)) := by
  intro base service scope hbase
  have hq1 : ∀ x ∈ (if service ≠ "" then setQueryParam base "service" service else base),
      (x.1 = "service" → service ≠ "" ∧ x = ("service", service)) ∧ x.1 ≠ "scope" := by
    intro x hx
    by_cases hs : service = ""
    · rw [if_neg (fun hne => hne hs)] at hx
      exact ⟨fun he => absurd he (hbase x hx).1, (hbase x hx).2⟩
    · rw [if_pos hs] at hx
      rcases mem_setQueryParam.mp hx with ⟨hxq, _⟩ | hxe
      · exact ⟨fun he => absurd he (hbase x hxq).1, (hbase x hxq).2⟩
      · refine ⟨fun _ => ⟨hs, hxe⟩, ?_⟩
        rw [hxe]
        exact (show ("service" : String) ≠ "scope" by decide)
  have hmemq : ∀ x ∈ tokenQuery base service scope,
      (x.1 = "service" → service ≠ "" ∧ x = ("service", service)) ∧
      (x.1 = "scope" → scope ≠ "" ∧ x = ("scope", scope)) := by
    intro x hx
    unfold tokenQuery at hx
    by_cases hc : scope = ""
    · rw [if_neg (fun hne => hne hc)] at hx
      exact ⟨(hq1 x hx).1, fun he => absurd he (hq1 x hx).2⟩
    · rw [if_pos hc] at hx
      rcases mem_setQueryParam.mp hx with ⟨hxq, hxne⟩ | hxe
      · exact ⟨(hq1 x hxq).1, fun he => absurd he hxne⟩
      · constructor
        · intro he
          rw [hxe] at he
          have he2 : ("scope" : String) = "service" := he
          exact absurd he2 (by decide)
        · exact fun _ => ⟨hc, hxe⟩
  refine ⟨?_, ?_, ?_, ?_⟩
  · intro hs v hv
    exact ((hmemq _ hv).1 rfl).1 hs
  · intro hc v hv
    exact ((hmemq _ hv).2 rfl).1 hc
  · intro hs
    unfold tokenQuery
    have hmem1 : ("service", service) ∈
        (if service ≠ "" then setQueryParam base "service" service else base) := by
      rw [if_pos hs]
      exact mem_setQueryParam.mpr (Or.inr rfl)
    by_cases hc : scope = ""
    · rw [if_neg (fun hne => hne hc)]
      exact hmem1
    · rw [if_pos hc]
      exact mem_setQueryParam.mpr
        (Or.inl ⟨hmem1, show ("service" : String) ≠ "scope" by decide⟩)
  · intro hc
    unfold tokenQuery
    rw [if_pos hc]
    exact mem_setQueryParam.mpr (Or.inr rfl)

/-- C8 counterexample: a challenge with one leading space before the
scheme is rejected with "unsupported auth challenge" although its `realm`
parameter is present and non-blank, while the identical challenge without
the leading space parses successfully; so the parser does not tolerate
white space before the scheme, and failure is not equivalent to a missing
`realm`. -/
theorem c8_counterexample :
    parseBearerChallenge " Bearer realm=\"https://auth.example/token\"" =
      .error "unsupported auth challenge  Bearer realm=\"https://auth.example/token\"" ∧
    parseBearerChallenge "Bearer realm=\"https://auth.example/token\"" =
      .ok ("https://auth.example/token", "", "") := ⟨rfl, rfl⟩

/-- C8 (corrected): once the scheme prefix matches after per-character
lowercasing — any seven characters whose lowercasing is `"bearer "` — the
parser fails exactly when the extracted `realm` is blank and otherwise
returns the realm/service/scope values; the parameter scanner tolerates
arbitrary non-name junk (white space, commas) before, between and after
the `name="value"` pairs; parameter names are matched case-insensitively
with the last occurrence winning and absent names giving the blank value;
and a blank `service` or `scope` is omitted from the token query while a
non-blank one is set. The original claim's unqualified whitespace
tolerance and its "fails iff realm is missing" are refuted by the
counterexample: white space before the scheme is rejected even with a
realm present. -/
theorem c8_bearer_challenge :
    (∀ (pre params : String), toLowerStr pre = "bearer " →
      parseBearerChallenge ⟨pre.data ++ params.data⟩ =
        (if trimSpace (valuesOf (scanPairs params.data) "realm") = ""
         then .error "auth challenge missing realm"
         else .ok (valuesOf (scanPairs params.data) "realm",
                   valuesOf (scanPairs params.data) "service",
                   valuesOf (scanPairs params.data) "scope"))) ∧
    (∀ items trailing, RenderOK items trailing →
      scanPairs (renderPairs items trailing) =
        items.map (fun it => (it.2.1, it.2.2))) ∧
    (∀ (pairs : List (String × String)) (N v k : String), toLowerStr N = k →
      valuesOf (pairs ++ [(N, v)]) k = v) ∧
    (∀ (pairs : List (String × String)) (k : String),
      (∀ kv ∈ pairs, toLowerStr kv.1 ≠ k) → valuesOf pairs k = "") ∧
    (∀ (base : List (String × String)) (service scope : String),
      (∀ kv ∈ base, kv.1 ≠ "service" ∧ kv.1 ≠ "scope") →
      ((service = "" → ∀ v, ("service", v) ∉ tokenQuery base service scope) ∧
       (scope = "" → ∀ v, ("scope", v) ∉ tokenQuery base service scope) ∧
       (service ≠ "" → ("service", service) ∈ tokenQuery base service scope) ∧
       (scope ≠ "" → ("scope", scope) ∈ tokenQuery base service scope))) :=
  ⟨bearer_parse_scheme, scanPairs_render, valuesOf_append_last, valuesOf_not_mem,
   tokenQuery_spec⟩

/-- C8 witness: the corrected theorem applied at the mixed-case scheme
`"BeArEr "` and the parameter section `realm="r"`, whose realm is
non-blank. -/
theorem c8_bearer_challenge_witness :
    parseBearerChallenge ⟨"BeArEr ".data ++ "realm=\"r\"".data⟩ = .ok ("r", "", "") := by
  rw [c8_bearer_challenge.1 "BeArEr " "realm=\"r\"" (by decide)]
  rfl

/-! ## Scheduler lemmas -/

theorem occ_filter_le (l S : List String) (id : String) (hid : id ∉ S) :
    (l.filter (fun d => decide (d = id))).length ≤
      (l.filter (fun d => decide (d ∉ S))).length := by
  induction l with
  | nil => simp
  | cons d rest ih =>
      simp only [List.filter_cons]
      by_cases hdi : d = id
      · subst hdi
        rw [if_pos (by simp), if_pos (by simpa using hid)]
        simp only [List.length_cons]
        omega
      · rw [if_neg (by simpa using hdi)]
        by_cases hds : d ∈ S
        · rw [if_neg (by simpa using hds)]
          exact ih
        · rw [if_pos (by simpa using hds)]
          simp only [List.length_cons]
          omega

theorem filter_unrecv_append (l S : List String) (id : String) (hid : id ∉ S) :
    (l.filter (fun d => decide (d ∉ S ++ [id]))).length =
      (l.filter (fun d => decide (d ∉ S))).length -
      (l.filter (fun d => decide (d = id))).length := by
  induction l with
  | nil => simp
  | cons d rest ih =>
      have hle := occ_filter_le rest S id hid
      simp only [List.filter_cons]
      by_cases hdi : d = id
      · subst hdi
        rw [if_neg (by simp), if_pos (by simpa using hid), if_pos (by simp)]
        simp only [List.length_cons]
        omega
      · by_cases hds : d ∈ S
        · rw [if_neg (by simp [hds]), if_neg (by simpa using hds),
            if_neg (by simpa using hdi)]
          exact ih
        · rw [if_pos (by simp [hds, hdi]), if_pos (by simpa using hds),
            if_neg (by simpa using hdi)]
          simp only [List.length_cons]
          omega

theorem cnt_append_single (jobs : Closure) (S : List String) (id : String)
    (hid : id ∉ S) (j : String) :
    cnt jobs (S ++ [id]) j = cnt jobs S j - occCount id (depsOf jobs j) := by
  unfold cnt occCount
  exact filter_unrecv_append (depsOf jobs j) S id hid

theorem perm_of_mset {l1 l2 : List String} (h : (↑l1 : Multiset String) = ↑l2) :
    l1.Perm l2 :=
  Multiset.coe_eq_coe.mp h

theorem mem_enqAfter {jobs : Closure} {s : SState} {id j : String} :
    j ∈ enqAfter jobs s id ↔
      j ∈ keysOf jobs ∧ 0 < occCount id (depsOf jobs j) ∧
      degAfter jobs s id j = 0 ∧ s.queuedF j = false := by
  unfold enqAfter
  simp [List.mem_filter, and_assoc]

theorem started_requires_received (jobs : Closure) (s : SState) (hinv : InvS jobs s) :
    ∀ j ∈ s.started, ∀ r ∈ depsOf jobs j, r ∈ s.received := by
  obtain ⟨i1, i2, i3, i4, i5, i6, i7⟩ := hinv
  intro j hj r hr
  have hqf : s.queuedF j = true := (i2 j).mpr (List.mem_append_right _ hj)
  have hdg := i7 j hqf
  rw [i1 j] at hdg
  unfold cnt at hdg
  rw [List.length_eq_zero] at hdg
  have h2 := List.filter_eq_nil_iff.mp hdg r hr
  simpa using h2

theorem invS_init (jobs : Closure) (s : SState) (hknd : (keysOf jobs).Nodup)
    (hin : InitS jobs s) : InvS jobs s := by
  obtain ⟨hq, hr, hd, hv, hst, hdeg, hqd⟩ := hin
  refine ⟨?_, ?_, ?_, ?_, ?_, ?_, ?_⟩
  · intro j
    rw [hdeg j, hv]
    unfold cnt
    simp
  · intro j
    rw [hqd j, hst]
    simp only [List.append_nil]
    exact hq.mem_iff.symm
  · rw [hst, hr, hd, hv]
    simp
  · rw [hst]
    simp only [List.append_nil]
    exact hq.symm.nodup (List.Nodup.filter _ hknd)
  · intro j hj
    rw [hst] at hj
    simp only [List.append_nil] at hj
    have hz : j ∈ zeroDegIds jobs := hq.subset hj
    exact (List.mem_filter.mp hz).1
  · intro j hjk hdj
    rw [hqd j]
    rw [hdeg j] at hdj
    exact List.mem_filter.mpr ⟨hjk, by simpa using hdj⟩
  · intro j hqj
    rw [hqd j] at hqj
    rw [hdeg j]
    simpa using (List.mem_filter.mp hqj).2

theorem invS_step (jobs : Closure) (W : Nat) (s t : SState)
    (hknd : (keysOf jobs).Nodup) (hinv : InvS jobs s) (hstep : StepS jobs W s t) :
    InvS jobs t := by
  obtain ⟨i1, i2, i3, i4, i5, i6, i7⟩ := hinv
  cases hstep with
  | pick j q' hq hw =>
      refine ⟨i1, ?_, ?_, ?_, ?_, i6, i7⟩
      · intro x
        rw [show (SState.queuedF ⟨q', s.running ++ [j], s.done, s.received,
            s.started ++ [j], s.deg, s.queuedF⟩) = s.queuedF from rfl]
        rw [i2 x, hq]
        show x ∈ (j :: q') ++ s.started ↔ x ∈ q' ++ (s.started ++ [j])
        simp only [List.mem_append, List.mem_cons, List.mem_singleton]
        tauto
      · show (s.started ++ [j]).Perm ((s.running ++ [j]) ++ s.done ++ s.received)
        refine (i3.append_right [j]).trans ?_
        refine perm_of_mset ?_
        simp only [← Multiset.coe_add]
        abel
      · show (q' ++ (s.started ++ [j])).Nodup
        have h0 : ((j :: q') ++ s.started).Nodup := by
          rw [← hq]
          exact i4
        refine (perm_of_mset ?_).nodup h0
        simp only [← Multiset.coe_add, ← Multiset.cons_coe, ← Multiset.singleton_add,
          Multiset.coe_nil]
        abel
      · intro x hx
        apply i5
        rw [hq]
        show x ∈ (j :: q') ++ s.started
        have hx2 : x ∈ q' ++ (s.started ++ [j]) := hx
        simp only [List.mem_append, List.mem_cons, List.mem_singleton] at hx2 ⊢
        tauto
  | finish j hj =>
      refine ⟨i1, i2, ?_, i4, i5, i6, i7⟩
      show s.started.Perm ((s.running.erase j) ++ (s.done ++ [j]) ++ s.received)
      refine i3.trans ?_
      have hro : s.running.Perm (j :: s.running.erase j) := List.perm_cons_erase hj
      refine ((hro.append_right s.done).append_right s.received).trans ?_
      refine perm_of_mset ?_
      simp only [← Multiset.coe_add, ← Multiset.cons_coe, ← Multiset.singleton_add,
        Multiset.coe_nil]
      abel
  | receive id d' hd =>
      have hstnd : (s.running ++ s.done ++ s.received).Nodup :=
        i3.nodup i4.of_append_right
      have hidv : id ∉ s.received := by
        intro hmem
        have h1 : id ∈ s.running ++ s.done := by
          refine List.mem_append_right _ ?_
          rw [hd]
          exact List.mem_cons_self _ _
        exact (List.nodup_append.mp hstnd).2.2 h1 hmem
      have hqenq : ∀ x ∈ enqAfter jobs s id, s.queuedF x = false :=
        fun x hx => (mem_enqAfter.mp hx).2.2.2
      refine ⟨?_, ?_, ?_, ?_, ?_, ?_, ?_⟩
      · intro j
        show degAfter jobs s id j = cnt jobs (s.received ++ [id]) j
        rw [cnt_append_single jobs s.received id hidv j, ← i1 j]
        rfl
      · intro x
        show (s.queuedF x || decide (x ∈ enqAfter jobs s id)) = true ↔
          x ∈ (s.queue ++ enqAfter jobs s id) ++ s.started
        rw [Bool.or_eq_true, i2 x]
        simp only [List.mem_append, decide_eq_true_eq]
        tauto
      · show s.started.Perm (s.running ++ d' ++ (s.received ++ [id]))
        refine i3.trans ?_
        rw [hd]
        refine perm_of_mset ?_
        simp only [← Multiset.coe_add, ← Multiset.cons_coe, ← Multiset.singleton_add,
          Multiset.coe_nil]
        abel
      · show ((s.queue ++ enqAfter jobs s id) ++ s.started).Nodup
        have hend : (enqAfter jobs s id).Nodup := List.Nodup.filter _ hknd
        have hdisj : ∀ x ∈ enqAfter jobs s id, x ∉ s.queue ++ s.started := by
          intro x hx hmem
          have := (i2 x).mpr hmem
          rw [hqenq x hx] at this
          exact Bool.false_ne_true this
        have h0 : ((s.queue ++ s.started) ++ enqAfter jobs s id).Nodup := by
          rw [List.nodup_append]
          exact ⟨i4, hend, fun a ha hb => hdisj a hb ha⟩
        refine (perm_of_mset ?_).nodup h0
        simp only [← Multiset.coe_add]
        abel
      · intro x hx
        have hx2 : x ∈ (s.queue ++ enqAfter jobs s id) ++ s.started := hx
        simp only [List.mem_append] at hx2
        rcases hx2 with (hx2 | hx2) | hx2
        · exact i5 x (List.mem_append_left _ hx2)
        · exact (mem_enqAfter.mp hx2).1
        · exact i5 x (List.mem_append_right _ hx2)
      · intro j hjk hdj
        show (s.queuedF j || decide (j ∈ enqAfter jobs s id)) = true
        rw [Bool.or_eq_true]
        by_cases hq : s.queuedF j = true
        · exact Or.inl hq
        · have hq0 : s.queuedF j = false := by
            cases hqv : s.queuedF j with
            | false => rfl
            | true => exact absurd hqv hq
          by_cases hocc : 0 < occCount id (depsOf jobs j)
          · refine Or.inr ?_
            rw [decide_eq_true_eq]
            exact mem_enqAfter.mpr ⟨hjk, hocc, hdj, hq0⟩
          · have hocc0 : occCount id (depsOf jobs j) = 0 := by omega
            have hdj2 : s.deg j - occCount id (depsOf jobs j) = 0 := hdj
            have hdj0 : s.deg j = 0 := by omega
            rw [i6 j hjk hdj0] at hq0
            exact absurd hq0 (by simp)
      · intro j hqj
        have hqj2 : (s.queuedF j || decide (j ∈ enqAfter jobs s id)) = true := hqj
        rw [Bool.or_eq_true, decide_eq_true_eq] at hqj2
        show degAfter jobs s id j = 0
        rcases hqj2 with hqj2 | hqj2
        · have := i7 j hqj2
          have h2 : degAfter jobs s id j = s.deg j - occCount id (depsOf jobs j) := rfl
          omega
        · exact (mem_enqAfter.mp hqj2).2.2.1

theorem wt_step (jobs : Closure) (W : Nat) (s t : SState) (h : StepS jobs W s t) :
    wt s + 1 ≤ wt t := by
  cases h with
  | pick j q' hq hw =>
      show wt s + 1 ≤ q'.length + 2 * (s.running ++ [j]).length +
        3 * s.done.length + 4 * s.received.length
      unfold wt
      rw [hq]
      simp only [List.length_append, List.length_cons, List.length_singleton]
      omega
  | finish j hj =>
      show wt s + 1 ≤ s.queue.length + 2 * (s.running.erase j).length +
        3 * (s.done ++ [j]).length + 4 * s.received.length
      unfold wt
      have h1 : (s.running.erase j).length = s.running.length - 1 :=
        List.length_erase_of_mem hj
      have h2 : 0 < s.running.length := List.length_pos.mpr (List.ne_nil_of_mem hj)
      simp only [List.length_append, List.length_singleton]
      omega
  | receive id d' hd =>
      show wt s + 1 ≤ (s.queue ++ enqAfter jobs s id).length + 2 * s.running.length +
        3 * d'.length + 4 * (s.received ++ [id]).length
      unfold wt
      rw [hd]
      simp only [List.length_append, List.length_cons, List.length_singleton]
      omega

theorem wt_le_of_inv (jobs : Closure) (s : SState) (hinv : InvS jobs s) :
    wt s ≤ 4 * (keysOf jobs).length := by
  obtain ⟨i1, i2, i3, i4, i5, i6, i7⟩ := hinv
  have hperm : (s.queue ++ s.started).Perm
      (s.queue ++ (s.running ++ s.done ++ s.received)) :=
    List.Perm.append_left s.queue i3
  have hnd2 := hperm.nodup i4
  have hsub2 : ∀ x ∈ s.queue ++ (s.running ++ s.done ++ s.received), x ∈ keysOf jobs :=
    fun x hx => i5 x (hperm.symm.subset hx)
  have hlen := nodup_subset_length hnd2 hsub2
  unfold wt
  simp only [List.length_append] at hlen ⊢
  omega

theorem reachN_inv (jobs : Closure) (W : Nat) (hknd : (keysOf jobs).Nodup) :
    ∀ (n : Nat) (s : SState), ReachN jobs W n s → InvS jobs s ∧ n ≤ wt s := by
  intro n s h
  induction h with
  | init s0 hin => exact ⟨invS_init jobs s0 hknd hin, Nat.zero_le _⟩
  | step n s0 t hreach hstep ih =>
      refine ⟨invS_step jobs W s0 t hknd ih.1 hstep, ?_⟩
      have hwt := wt_step jobs W s0 t hstep
      omega

theorem terminal_state (jobs : Closure) (W : Nat) (hW : 1 ≤ W) (s : SState)
    (hinv : InvS jobs s)
    (hclosed : ∀ p ∈ jobs, ∀ d ∈ p.2, d ∈ keysOf jobs)
    (hacyc : ∀ l, ¬ IsDepCycle jobs l)
    (hknd : (keysOf jobs).Nodup)
    (hterm : ∀ t, ¬ StepS jobs W s t) :
    s.received.Perm (keysOf jobs) ∧ s.started.Perm (keysOf jobs) := by
  obtain ⟨i1, i2, i3, i4, i5, i6, i7⟩ := hinv
  have hdone : s.done = [] := by
    cases hdd : s.done with
    | nil => rfl
    | cons id d' => exact absurd (StepS.receive s id d' hdd) (hterm _)
  have hrun : s.running = [] := by
    cases hrr : s.running with
    | nil => rfl
    | cons j r' =>
        refine absurd (StepS.finish s j ?_) (hterm _)
        rw [hrr]
        exact List.mem_cons_self _ _
  have hqueue : s.queue = [] := by
    cases hqq : s.queue with
    | nil => rfl
    | cons j q' =>
        refine absurd (StepS.pick s j q' hqq ?_) (hterm _)
        rw [hrun]
        simpa using hW
  have hsr : s.started.Perm s.received := by
    refine i3.trans ?_
    rw [hrun, hdone]
    simp
  have hstnd : s.started.Nodup := i4.of_append_right
  have hrecnd : s.received.Nodup := hsr.nodup hstnd
  have hrsub : ∀ x ∈ s.received, x ∈ keysOf jobs := by
    intro x hx
    exact i5 x (List.mem_append_right _ (hsr.symm.subset hx))
  have hksub : ∀ n ∈ keysOf jobs, n ∈ s.received := by
    by_contra hcon
    push_neg at hcon
    obtain ⟨n0, hn0k, hn0r⟩ := hcon
    have hready : NoReady jobs s.received := by
      intro n hnk hnr hall
      have hcnt : cnt jobs s.received n = 0 := by
        unfold cnt
        rw [List.length_eq_zero, List.filter_eq_nil_iff]
        intro d hdmem
        simpa using hall d hdmem
      have hdg : s.deg n = 0 := by
        rw [i1 n]
        exact hcnt
      have hmem := (i2 n).mp (i6 n hnk hdg)
      rw [hqueue] at hmem
      simp only [List.nil_append] at hmem
      exact hnr (hsr.subset hmem)
    obtain ⟨l, hl⟩ := cycle_of_noReady jobs hclosed s.received hready ⟨n0, hn0k, hn0r⟩
    exact hacyc l hl
  have hperm : s.received.Perm (keysOf jobs) :=
    (List.subperm_of_subset hrecnd hrsub).antisymm
      (List.subperm_of_subset hknd hksub)
  exact ⟨hperm, hsr.trans hperm⟩

/-- C1: for a batch of jobs with distinct ids, requirements that
reference only sibling ids, and an acyclic requires-graph — the batches
`Executor.Run` accepts — every reachable state of the success-path
scheduler has: a duplicate-free log of begun runs (no job's `Run` begins
twice); every begun job's requirements already received by the main loop
(so completed successfully before the dependent's `Run` began, since an
id is received only after its `Run` returned `nil`); trace length at
most four steps per job (every run terminates); and every stuck state —
where `Executor.Run` has returned — has begun and received exactly the
input jobs, each exactly once. -/
theorem c1_scheduler :
    ∀ (jobs : Closure) (W : Nat), 1 ≤ W → (keysOf jobs).Nodup →
      (∀ p ∈ jobs, ∀ d ∈ p.2, d ∈ keysOf jobs) →
      (∀ l, ¬ IsDepCycle jobs l) →
      ∀ (n : Nat) (s : SState), ReachN jobs W n s →
        s.started.Nodup ∧
        (∀ j ∈ s.started, ∀ r ∈ depsOf jobs j, r ∈ s.received) ∧
        n ≤ 4 * (keysOf jobs).length ∧
        ((∀ t, ¬ StepS jobs W s t) →
          s.started.Perm (keysOf jobs) ∧ s.received.Perm (keysOf jobs)) := by
  intro jobs W hW hknd hclosed hacyc n s hreach
  obtain ⟨hinv, hn⟩ := reachN_inv jobs W hknd n s hreach
  refine ⟨hinv.2.2.2.1.of_append_right, started_requires_received jobs s hinv, ?_, ?_⟩
  · have := wt_le_of_inv jobs s hinv
    omega
  · intro hterm
    have h := terminal_state jobs W hW s hinv hclosed hacyc hknd hterm
    exact ⟨h.2, h.1⟩

/-- C1 witness: the theorem applied to the one-job batch `[("a", [])]`
with one worker, at its initial state. -/
theorem c1_scheduler_witness :
    (SState.started ⟨["a"], [], [], [], [],
      fun j => (depsOf [("a", [])] j).length,
      fun j => decide (j ∈ zeroDegIds [("a", [])])⟩).Nodup ∧
    (0 : Nat) ≤ 4 * (keysOf [("a", [])]).length := by
  have hdeps : ∀ m, depsOf ([("a", [])] : Closure) m = [] := by
    intro m
    unfold depsOf
    cases h : List.find? (fun p => p.1 == m) ([("a", [])] : Closure) with
    | none => rfl
    | some p =>
        have hpm := List.mem_of_find?_eq_some h
        simp only [List.mem_singleton] at hpm
        rw [hpm]
  have hacyc : ∀ l, ¬ IsDepCycle ([("a", [])] : Closure) l := by
    intro l hl
    cases l with
    | nil => exact hl
    | cons x rest =>
        have hlast := hl.2
        rw [hdeps] at hlast
        exact absurd hlast (List.not_mem_nil x)
  have hinit : InitS ([("a", [])] : Closure)
      ⟨["a"], [], [], [], [],
        fun j => (depsOf [("a", [])] j).length,
        fun j => decide (j ∈ zeroDegIds [("a", [])])⟩ := by
    refine ⟨?_, rfl, rfl, rfl, rfl, fun j => rfl, fun j => by simp⟩
    have hz : zeroDegIds ([("a", [])] : Closure) = ["a"] := rfl
    rw [hz]
  have h := c1_scheduler [("a", [])] 1 (by decide) (by decide)
    (by intro p hp d hd; simp only [List.mem_singleton] at hp; rw [hp] at hd; exact
      absurd hd (List.not_mem_nil d))
    hacyc 0 _ (ReachN.init _ hinit)
  exact ⟨h.1, h.2.2.1⟩

end Ub
